import Mathlib

/-!
# Verification of the `ts-bayes` Naive Bayes classifier (src/index.ts)

Shallow embedding of the TypeScript source.  JavaScript plain objects used
as string-keyed dictionaries are modelled as association lists (`StrMap`)
whose keys iterate in insertion order; property assignment updates an
existing key in place and appends a fresh key at the end, matching JS
object semantics.  (The JS quirk that integer-like keys iterate first is
not modelled; no claim depends on key iteration order.)

JavaScript numbers appearing in inference are modelled by `JNum`, exact
rationals extended with `+Infinity`, `-Infinity` and `NaN`, with the IEEE
special-value rules for the arithmetic the source performs; `Math.log` is
an abstract parameter on the positive finite part (its finite values never
matter to the claims, only the special-value behaviour does).  Counter
fields (`docCount`, `wordCount`, `totalDocuments`, `vocabularySize`,
frequency tables) only ever hold naturals in the source, and are modelled
as `Nat`.
-/

set_option linter.unusedVariables false

namespace TsBayes

attribute [local semireducible] Rat.add Rat.mul Rat.inv Rat.sub

/-- JS object used as a dictionary: association list, first match wins. -/
abbrev StrMap (α : Type) := List (String × α)

namespace StrMap

/-- Property read `obj[k]`: first binding of `k`, if any. -/
def lookup (m : StrMap α) (k : String) : Option α :=
  match m with
  | [] => none
  | (k', v) :: rest => if k' = k then some v else lookup rest k

/-- Property write `obj[k] = v`: update in place, else append (JS insertion
order semantics). -/
def setKey (m : StrMap α) (k : String) (v : α) : StrMap α :=
  match m with
  | [] => [(k, v)]
  | (k', v') :: rest =>
      if k' = k then (k', v) :: rest else (k', v') :: setKey rest k v

/-- `Object.keys`. -/
def keys (m : StrMap α) : List String := m.map Prod.fst

/-- Truthiness of a possibly-absent boolean property (`undefined` and
`false` are both falsy). -/
def truthy (o : Option Bool) : Bool := o.getD false

/-- Sum of all values of a numeric map. -/
def sumValues (m : StrMap Nat) : Nat := (m.map Prod.snd).sum

theorem lookup_setKey_self (m : StrMap α) (k : String) (v : α) :
    (m.setKey k v).lookup k = some v := by
  induction m with
  | nil => simp [setKey, lookup]
  | cons hd tl ih =>
      obtain ⟨k', v'⟩ := hd
      by_cases h : k' = k <;> simp [setKey, lookup, h, ih]

theorem lookup_setKey_ne (m : StrMap α) (k k' : String) (v : α)
    (hne : k ≠ k') : (m.setKey k v).lookup k' = m.lookup k' := by
  induction m with
  | nil => simp [setKey, lookup, hne]
  | cons hd tl ih =>
      obtain ⟨k₀, v₀⟩ := hd
      by_cases h : k₀ = k
      · subst h
        simp [setKey, lookup, hne]
      · simp [setKey, lookup, h, ih]

theorem keys_setKey (m : StrMap α) (k : String) (v : α) :
    (m.setKey k v).keys = if (m.lookup k).isSome then m.keys else m.keys ++ [k] := by
  induction m with
  | nil => simp [setKey, keys, lookup]
  | cons hd tl ih =>
      obtain ⟨k₀, v₀⟩ := hd
      by_cases h : k₀ = k
      · subst h; simp [setKey, keys, lookup]
      · simp only [setKey, keys, lookup, if_neg h, List.map_cons]
        rw [show (setKey tl k v).map Prod.fst = keys (setKey tl k v) from rfl, ih]
        by_cases hs : (lookup tl k).isSome <;> simp [hs, keys]

theorem length_setKey (m : StrMap α) (k : String) (v : α) :
    (m.setKey k v).length =
      if (m.lookup k).isSome then m.length else m.length + 1 := by
  induction m with
  | nil => simp [setKey, lookup]
  | cons hd tl ih =>
      obtain ⟨k₀, v₀⟩ := hd
      by_cases h : k₀ = k
      · subst h; simp [setKey, lookup]
      · simp only [setKey, lookup, if_neg h, List.length_cons, ih]
        by_cases hs : (lookup tl k).isSome <;> simp [hs]

theorem lookup_isSome_of_mem_keys (m : StrMap α) (k : String)
    (h : k ∈ m.keys) : (m.lookup k).isSome := by
  induction m with
  | nil => simp [keys] at h
  | cons hd tl ih =>
      obtain ⟨k₀, v₀⟩ := hd
      by_cases hk : k₀ = k
      · simp [lookup, hk]
      · simp [keys, hk] at h
        rcases h with h | h
        · exact absurd h.symm hk
        · simpa [lookup, hk] using ih (by simpa [keys] using h)

theorem mem_keys_of_lookup_isSome (m : StrMap α) (k : String)
    (h : (m.lookup k).isSome) : k ∈ m.keys := by
  induction m with
  | nil => simp [lookup] at h
  | cons hd tl ih =>
      obtain ⟨k₀, v₀⟩ := hd
      by_cases hk : k₀ = k
      · simp [keys, hk]
      · simp only [lookup, if_neg hk] at h
        have hm := ih h
        simp only [keys, List.map_cons]
        exact List.mem_cons_of_mem _ hm

theorem lookup_mem (m : StrMap α) (k : String) (v : α)
    (h : m.lookup k = some v) : (k, v) ∈ m := by
  induction m with
  | nil => simp [lookup] at h
  | cons hd tl ih =>
      obtain ⟨k₀, v₀⟩ := hd
      by_cases hk : k₀ = k
      · subst hk
        simp only [lookup, if_true] at h
        obtain rfl : v₀ = v := Option.some.inj h
        exact List.mem_cons_self _ _
      · simp only [lookup, if_neg hk] at h
        exact List.mem_cons_of_mem _ (ih h)

theorem mem_setKey (m : StrMap α) (k : String) (v : α) (p : String × α)
    (h : p ∈ m.setKey k v) : p ∈ m ∨ p = (k, v) := by
  induction m with
  | nil => simpa [setKey] using h
  | cons hd tl ih =>
      obtain ⟨k₀, v₀⟩ := hd
      by_cases hk : k₀ = k
      · subst hk
        rw [show setKey ((k₀, v₀) :: tl) k₀ v = (k₀, v) :: tl by simp [setKey]] at h
        rcases List.mem_cons.mp h with h1 | h1
        · exact Or.inr h1
        · exact Or.inl (List.mem_cons_of_mem _ h1)
      · simp only [setKey, if_neg hk, List.mem_cons] at h
        rcases h with rfl | h
        · exact Or.inl (List.mem_cons_self _ _)
        · rcases ih h with h' | h'
          · exact Or.inl (List.mem_cons_of_mem _ h')
          · exact Or.inr h'

theorem sumValues_setKey_add (m : StrMap Nat) (k : String) (f : Nat) :
    sumValues (m.setKey k ((m.lookup k).getD 0 + f)) = sumValues m + f := by
  induction m with
  | nil => simp [setKey, lookup, sumValues]
  | cons hd tl ih =>
      obtain ⟨k₀, v₀⟩ := hd
      by_cases hk : k₀ = k
      · subst hk
        have hl : lookup ((k₀, v₀) :: tl) k₀ = some v₀ := by simp [lookup]
        rw [hl, Option.getD_some]
        have hs : setKey ((k₀, v₀) :: tl) k₀ (v₀ + f) = (k₀, v₀ + f) :: tl := by
          simp [setKey]
        rw [hs]
        simp only [sumValues, List.map_cons, List.sum_cons]
        omega
      · have hl : lookup ((k₀, v₀) :: tl) k = lookup tl k := by
          simp [lookup, hk]
        have hs : setKey ((k₀, v₀) :: tl) k ((lookup tl k).getD 0 + f)
            = (k₀, v₀) :: setKey tl k ((lookup tl k).getD 0 + f) := by
          simp [setKey, hk]
        rw [hl, hs]
        simp only [sumValues, List.map_cons, List.sum_cons] at ih ⊢
        omega

theorem truthy_eq_some (o : Option Bool) (h : truthy o = true) : o = some true := by
  cases o with
  | none => simp [truthy] at h
  | some v => cases v <;> simp_all [truthy]

theorem lookup_none_of_not_truthy (m : StrMap Bool) (k : String)
    (hall : ∀ p ∈ m, p.2 = true) (h : truthy (m.lookup k) = false) :
    m.lookup k = none := by
  cases hl : m.lookup k with
  | none => rfl
  | some v =>
      have hv := hall _ (lookup_mem m k v hl)
      simp only at hv
      rw [hl, hv] at h
      simp [truthy] at h

theorem not_mem_keys_of_lookup_none (m : StrMap α) (k : String)
    (h : m.lookup k = none) : k ∉ m.keys := by
  intro hmem
  have := lookup_isSome_of_mem_keys m k hmem
  rw [h] at this
  simp at this

end StrMap

/-- A tokenizer: maps raw text to a sequence of tokens. -/
abbrev Tokenizer := String → List String

/-- The classifier state: the data fields of class `Bayes`.  The
`tokenizer` function and the `options` bag are configuration, not data;
they are passed explicitly where needed (functions are skipped by
`JSON.stringify` and no claim observes `options`). -/
structure Bayes where
  docCount : StrMap Nat := []
  wordCount : StrMap Nat := []
  wordFrequencyCount : StrMap (StrMap Nat) := []
  categories : StrMap Bool := []
  totalDocuments : Nat := 0
  vocabularySize : Nat := 0
  vocabulary : StrMap Bool := []
deriving DecidableEq, Repr

namespace Bayes

/-- `new Bayes()` with no prior state: everything empty/zero. -/
def empty : Bayes := {}

/-- `initializeCategory`: guarded by the falsy check
`!this.categories[categoryName]`. -/
def initializeCategory (b : Bayes) (categoryName : String) : Bayes :=
  if StrMap.truthy (b.categories.lookup categoryName) then b
  else
    { b with
      docCount := b.docCount.setKey categoryName 0
      wordCount := b.wordCount.setKey categoryName 0
      wordFrequencyCount := b.wordFrequencyCount.setKey categoryName []
      categories := b.categories.setKey categoryName true }

/-- `frequencyTable(tokens)`: `if (!ft[token]) ft[token] = 1 else ft[token]++`.
The falsy test conflates absent and `0`; since `0 + 1 = 1` both branches
equal "previous value (default 0) plus one". -/
def frequencyTable (tokens : List String) : StrMap Nat :=
  tokens.foldl
    (fun ft token => ft.setKey token ((ft.lookup token).getD 0 + 1)) []

/-- The vocabulary update at the top of the `forEach` in `learn`:
`if (!self.vocabulary[token]) { self.vocabulary[token] = true;
self.vocabularySize++; }`. -/
def addToVocabulary (b : Bayes) (token : String) : Bayes :=
  if StrMap.truthy (b.vocabulary.lookup token) then b
  else
    { b with
      vocabulary := b.vocabulary.setKey token true
      vocabularySize := b.vocabularySize + 1 }

/-- One iteration of the `forEach` in `learn`, for one `(token, frequency)`
entry of the frequency table.  The source's
`if (!wfc[category][token]) wfc[category][token] = f else += f` again
conflates absent and `0`, and both branches equal "previous value
(default 0) plus `f`".  (If `category` were absent from
`wordFrequencyCount` the source would throw; `learn` always runs
`initializeCategory` first, so the `getD []` below is exact there.) -/
def learnToken (category : String) (b : Bayes) (entry : String × Nat) : Bayes :=
  let b := b.addToVocabulary entry.1
  let catMap := (b.wordFrequencyCount.lookup category).getD []
  let catMap :=
    catMap.setKey entry.1 ((catMap.lookup entry.1).getD 0 + entry.2)
  { b with
    wordFrequencyCount := b.wordFrequencyCount.setKey category catMap
    wordCount :=
      b.wordCount.setKey category
        ((b.wordCount.lookup category).getD 0 + entry.2) }

/-- `learn(text, category)`. -/
def learn (tokenizer : Tokenizer) (b : Bayes) (text category : String) : Bayes :=
  let b := b.initializeCategory category
  let b :=
    { b with
      docCount :=
        b.docCount.setKey category ((b.docCount.lookup category).getD 0 + 1)
      totalDocuments := b.totalDocuments + 1 }
  let tokens := tokenizer text
  let ft := frequencyTable tokens
  ft.foldl (learnToken category) b

end Bayes

/-- ECMAScript `\s`: WhiteSpace and LineTerminator characters. -/
def isJsWhitespace (c : Char) : Bool :=
  c = ' ' || c = '\t' || c.toNat = 0x0B || c.toNat = 0x0C || c = '\n' ||
  c = '\r' || c.toNat = 0xA0 || c.toNat = 0x1680 ||
  (0x2000 ≤ c.toNat && c.toNat ≤ 0x200A) || c.toNat = 0x2028 ||
  c.toNat = 0x2029 || c.toNat = 0x202F || c.toNat = 0x205F ||
  c.toNat = 0x3000 || c.toNat = 0xFEFF

/-- The character class of `rgxPunctuation = /[^(a-zA-ZA-Яa-я0-9_)+\s]/g`
in `defaultTokenizer`, i.e. the characters that are NOT replaced.  Note the
source ranges `A-Я` (Latin `A` U+0041 through Cyrillic `Я` U+042F) and
`a-я` (Latin `a` U+0061 through Cyrillic `я` U+044F), and that the literal
characters `(`, `)`, `+` belong to the class. -/
def inTokenizerClass (c : Char) : Bool :=
  c = '(' ||
  ('a' ≤ c && c ≤ 'z') ||
  ('A' ≤ c && c ≤ 'Z') ||
  ('A' ≤ c && c.toNat ≤ 0x42F) ||
  ('a' ≤ c && c.toNat ≤ 0x44F) ||
  ('0' ≤ c && c ≤ '9') ||
  c = '_' || c = ')' || c = '+' ||
  isJsWhitespace c

/-- `text.replace(rgxPunctuation, " ")` acting on one character. -/
def sanitizeChar (c : Char) : Char :=
  if inTokenizerClass c then c else ' '

mutual

/-- `String.prototype.split(/\s+/)` while inside a (possibly empty)
non-separator segment whose characters so far are `cur` (reversed). -/
def splitRun : List Char → List Char → List (List Char)
  | [], cur => [cur.reverse]
  | c :: rest, cur =>
      if isJsWhitespace c then cur.reverse :: splitSep rest
      else splitRun rest (c :: cur)

/-- `split(/\s+/)` while inside a separator run (JS emits a trailing empty
segment when the input ends in a separator). -/
def splitSep : List Char → List (List Char)
  | [] => [[]]
  | c :: rest =>
      if isJsWhitespace c then splitSep rest else splitRun rest [c]

end

/-- `split(/\s+/)` on a whole string (JS yields `[""]` on the empty
string and a leading empty segment when the string starts with a
separator). -/
def splitWs (cs : List Char) : List (List Char) := splitRun cs []

/-- `Bayes.defaultTokenizer`. -/
def defaultTokenizer (text : String) : List String :=
  (splitWs (text.data.map sanitizeChar)).map String.mk

/-- States reachable from a freshly constructed empty classifier by any
sequence of `learn` calls (with any tokenizer). -/
inductive Reachable : Bayes → Prop where
  | empty : Reachable Bayes.empty
  | learn (tokenizer : Tokenizer) (text category : String) {b : Bayes} :
      Reachable b → Reachable (b.learn tokenizer text category)

/-- A JavaScript number as it occurs in inference: an exact rational, or
one of the IEEE special values.  Finite arithmetic is exact (the claims
under verification are about order and structure, not rounding). -/
inductive JNum where
  | fin (q : ℚ)
  | posInf
  | negInf
  | nan
deriving DecidableEq, Repr

namespace JNum

/-- IEEE addition on `JNum`. -/
def jadd : JNum → JNum → JNum
  | nan, _ => nan
  | _, nan => nan
  | fin a, fin b => fin (a + b)
  | fin _, posInf => posInf
  | fin _, negInf => negInf
  | posInf, fin _ => posInf
  | negInf, fin _ => negInf
  | posInf, posInf => posInf
  | negInf, negInf => negInf
  | posInf, negInf => nan
  | negInf, posInf => nan

/-- IEEE negation. -/
def jneg : JNum → JNum
  | fin a => fin (-a)
  | posInf => negInf
  | negInf => posInf
  | nan => nan

/-- IEEE subtraction. -/
def jsub (a b : JNum) : JNum := jadd a (jneg b)

/-- IEEE multiplication. -/
def jmul : JNum → JNum → JNum
  | nan, _ => nan
  | _, nan => nan
  | fin a, fin b => fin (a * b)
  | fin a, posInf => if 0 < a then posInf else if a < 0 then negInf else nan
  | fin a, negInf => if 0 < a then negInf else if a < 0 then posInf else nan
  | posInf, fin b => if 0 < b then posInf else if b < 0 then negInf else nan
  | negInf, fin b => if 0 < b then negInf else if b < 0 then posInf else nan
  | posInf, posInf => posInf
  | negInf, negInf => posInf
  | posInf, negInf => negInf
  | negInf, posInf => negInf

/-- IEEE division (divisors are nonnegative counts in the source, so the
`+0` sign convention is used for a zero divisor). -/
def jdiv : JNum → JNum → JNum
  | nan, _ => nan
  | _, nan => nan
  | fin a, fin b =>
      if b = 0 then (if 0 < a then posInf else if a < 0 then negInf else nan)
      else fin (a / b)
  | fin _, posInf => fin 0
  | fin _, negInf => fin 0
  | posInf, fin b => if 0 ≤ b then posInf else negInf
  | negInf, fin b => if 0 ≤ b then negInf else posInf
  | posInf, _ => nan
  | negInf, _ => nan

/-- `Math.log`, with the finite positive part abstracted by `lgf` (the
claims depend only on the special-value behaviour:
`log 0 = -Infinity`, `log x = NaN` for `x < 0`,
`log Infinity = Infinity`). -/
def jlog (lgf : ℚ → ℚ) : JNum → JNum
  | fin q => if 0 < q then fin (lgf q) else if q = 0 then negInf else nan
  | posInf => posInf
  | negInf => nan
  | nan => nan

/-- Strict `>` on JS numbers: false whenever `NaN` is involved. -/
def jgt : JNum → JNum → Bool
  | nan, _ => false
  | _, nan => false
  | fin a, fin b => a > b
  | fin _, posInf => false
  | fin _, negInf => true
  | posInf, posInf => false
  | posInf, _ => true
  | negInf, _ => false

/-- `< 0` on JS numbers (the sort comparator test): false for `NaN`. -/
def jltz : JNum → Bool
  | fin q => q < 0
  | negInf => true
  | _ => false

/-- A possibly-absent numeric property entering arithmetic (`undefined`
coerces to `NaN`). -/
def ofLookup : Option Nat → JNum
  | some n => fin n
  | none => nan

end JNum

namespace Bayes

open JNum

/-- `tokenProbability(token, category)`.  The source reads
`this.wordFrequencyCount[category][token] || 0` (the `|| 0` maps both an
absent entry and `0` to `0`); an absent `wordCount[category]` would be
`undefined` and poison the sum as `NaN`.  (If `category` itself were
absent from `wordFrequencyCount` the source would throw; the claims only
use categories that are present, where the `getD []` below is exact.) -/
def tokenProbability (b : Bayes) (token category : String) : JNum :=
  let wordFrequencyCount : ℚ :=
    ((((b.wordFrequencyCount.lookup category).getD []).lookup token).getD 0 : Nat)
  jdiv (JNum.fin (wordFrequencyCount + 1))
    (jadd (ofLookup (b.wordCount.lookup category)) (JNum.fin (b.vocabularySize : ℚ)))

/-- The accumulated log-probability `categorize` computes for one
category: prior `log(docCount[c] / totalDocuments)` plus
`Σ f · log(tokenProbability)` over the text's frequency table, in table
order. -/
def categoryScore (lgf : ℚ → ℚ) (b : Bayes) (ft : StrMap Nat)
    (category : String) : JNum :=
  let categoryProbability :=
    jdiv (ofLookup (b.docCount.lookup category)) (JNum.fin (b.totalDocuments : ℚ))
  ft.foldl
    (fun logProbability entry =>
      jadd logProbability
        (jmul (JNum.fin (entry.2 : ℚ)) (jlog lgf (b.tokenProbability entry.1 category))))
    (jlog lgf categoryProbability)

end Bayes

/-- One scored category (class `CategoryResult`). -/
structure CategoryResult where
  name : String
  probability : JNum
deriving DecidableEq, Repr

/-- The value `categorize` returns (class `CategoryResults`); the
`chosenCategory` and `probability` fields start out `undefined`, modelled
as `none`. -/
structure CategoryResults where
  chosenCategory : Option String := none
  probability : Option JNum := none
  categoryResults : List CategoryResult := []
deriving DecidableEq, Repr

/-- Stable insertion of one result into the list sorted by the JS
comparator `(n1, n2) => n2.probability - n1.probability`: `x` goes in
front of the first `y` with `comparator(x, y) < 0`, i.e. with
`y.probability - x.probability < 0`. -/
def insertResult (x : CategoryResult) : List CategoryResult → List CategoryResult
  | [] => [x]
  | y :: ys =>
      if JNum.jltz (JNum.jsub y.probability x.probability) then x :: y :: ys
      else y :: insertResult x ys

/-- `Array.prototype.sort` with that comparator, as a stable insertion
sort (sort order is descending by probability; elements whose comparison
involves `NaN` compare as ties and keep their relative order). -/
def sortResults (l : List CategoryResult) : List CategoryResult :=
  l.foldl (fun acc x => insertResult x acc) []

namespace Bayes

open JNum

/-- One iteration of the `forEach` over `Object.keys(self.categories)` in
`categorize`.  The fold state carries the partially built
`CategoryResults` together with the local `maxProbability`;
`chosenCategory`/`probability` are (re)assigned exactly when
`logProbability > maxProbability`. -/
def categorizeStep (lgf : ℚ → ℚ) (b : Bayes) (ft : StrMap Nat)
    (acc : CategoryResults × JNum) (category : String) :
    CategoryResults × JNum :=
  let logProbability := b.categoryScore lgf ft category
  let results :=
    { acc.1 with
      categoryResults :=
        acc.1.categoryResults ++ [CategoryResult.mk category logProbability] }
  if jgt logProbability acc.2 then
    ({ results with
        chosenCategory := some category
        probability := some logProbability }, logProbability)
  else (results, acc.2)

/-- `categorize(text)`: score every known category (with `maxProbability`
starting at `-Infinity`), then sort the result list with the comparator
`(n1, n2) => n2.probability - n1.probability`. -/
def categorize (lgf : ℚ → ℚ) (tokenizer : Tokenizer) (b : Bayes)
    (text : String) : CategoryResults :=
  let tokens := tokenizer text
  let ft := frequencyTable tokens
  let final := (b.categories.keys).foldl (categorizeStep lgf b ft) ({}, JNum.negInf)
  { final.1 with categoryResults := sortResults final.1.categoryResults }

end Bayes

section FrameLemmas

open StrMap

theorem addToVocabulary_docCount (b : Bayes) (t : String) :
    (b.addToVocabulary t).docCount = b.docCount := by
  unfold Bayes.addToVocabulary
  split <;> rfl

theorem addToVocabulary_wordCount (b : Bayes) (t : String) :
    (b.addToVocabulary t).wordCount = b.wordCount := by
  unfold Bayes.addToVocabulary
  split <;> rfl

theorem addToVocabulary_wordFrequencyCount (b : Bayes) (t : String) :
    (b.addToVocabulary t).wordFrequencyCount = b.wordFrequencyCount := by
  unfold Bayes.addToVocabulary
  split <;> rfl

theorem addToVocabulary_categories (b : Bayes) (t : String) :
    (b.addToVocabulary t).categories = b.categories := by
  unfold Bayes.addToVocabulary
  split <;> rfl

theorem addToVocabulary_totalDocuments (b : Bayes) (t : String) :
    (b.addToVocabulary t).totalDocuments = b.totalDocuments := by
  unfold Bayes.addToVocabulary
  split <;> rfl

theorem learnToken_docCount (category : String) (b : Bayes) (e : String × Nat) :
    (Bayes.learnToken category b e).docCount = b.docCount := by
  unfold Bayes.learnToken
  simp [addToVocabulary_docCount]

theorem learnToken_categories (category : String) (b : Bayes) (e : String × Nat) :
    (Bayes.learnToken category b e).categories = b.categories := by
  unfold Bayes.learnToken
  simp [addToVocabulary_categories]

theorem learnToken_totalDocuments (category : String) (b : Bayes) (e : String × Nat) :
    (Bayes.learnToken category b e).totalDocuments = b.totalDocuments := by
  unfold Bayes.learnToken
  simp [addToVocabulary_totalDocuments]

theorem learnToken_lookup_ne (category c' : String) (hne : c' ≠ category)
    (b : Bayes) (e : String × Nat) :
    (Bayes.learnToken category b e).wordCount.lookup c' = b.wordCount.lookup c' ∧
    (Bayes.learnToken category b e).wordFrequencyCount.lookup c'
      = b.wordFrequencyCount.lookup c' := by
  have hsym : category ≠ c' := fun hh => hne hh.symm
  unfold Bayes.learnToken
  simp [addToVocabulary_wordCount, addToVocabulary_wordFrequencyCount,
    lookup_setKey_ne _ _ _ _ hsym]

theorem foldl_learnToken_lookup_ne (category c' : String) (hne : c' ≠ category)
    (l : List (String × Nat)) (b : Bayes) :
    (l.foldl (Bayes.learnToken category) b).docCount.lookup c'
        = b.docCount.lookup c' ∧
    (l.foldl (Bayes.learnToken category) b).wordCount.lookup c'
        = b.wordCount.lookup c' ∧
    (l.foldl (Bayes.learnToken category) b).wordFrequencyCount.lookup c'
        = b.wordFrequencyCount.lookup c' := by
  induction l generalizing b with
  | nil => exact ⟨rfl, rfl, rfl⟩
  | cons e rest ih =>
      obtain ⟨h1, h2, h3⟩ := ih (Bayes.learnToken category b e)
      refine ⟨?_, ?_, ?_⟩
      · rw [List.foldl_cons, h1, learnToken_docCount]
      · rw [List.foldl_cons, h2, (learnToken_lookup_ne category c' hne b e).1]
      · rw [List.foldl_cons, h3, (learnToken_lookup_ne category c' hne b e).2]

end FrameLemmas

section Invariants

open StrMap

/-- The state invariant maintained by `learn`: vocabulary entries are all
`true` with distinct keys, `vocabularySize` counts them, the per-category
maps have entries exactly for the categories present, and
`wordCount[cat]` is the sum of the values of `wordFrequencyCount[cat]`. -/
structure WF (b : Bayes) : Prop where
  vocabTrue : ∀ p ∈ b.vocabulary, p.2 = true
  vocabNodup : b.vocabulary.keys.Nodup
  vocabSize : b.vocabularySize = b.vocabulary.length
  catDom : ∀ cat, truthy (b.categories.lookup cat) = false →
    b.docCount.lookup cat = none ∧ b.wordCount.lookup cat = none ∧
      b.wordFrequencyCount.lookup cat = none
  conservation : ∀ cat, truthy (b.categories.lookup cat) = true →
    ∃ m, b.wordFrequencyCount.lookup cat = some m ∧
      b.wordCount.lookup cat = some (sumValues m)

theorem wf_empty : WF Bayes.empty := by
  refine ⟨?_, ?_, ?_, ?_, ?_⟩
  · intro p hp
    simp [Bayes.empty] at hp
  · simp [Bayes.empty, keys]
  · simp [Bayes.empty]
  · intro cat _
    exact ⟨rfl, rfl, rfl⟩
  · intro cat hcat
    simp [Bayes.empty, lookup, truthy] at hcat

theorem truthy_categories_initializeCategory (b : Bayes) (cat : String) :
    truthy ((b.initializeCategory cat).categories.lookup cat) = true := by
  unfold Bayes.initializeCategory
  by_cases hc : truthy (b.categories.lookup cat)
  · rw [if_pos hc]
    exact hc
  · rw [if_neg (by simpa using hc)]
    simp [lookup_setKey_self, truthy]

theorem wf_initializeCategory (b : Bayes) (cat : String) (h : WF b) :
    WF (b.initializeCategory cat) := by
  unfold Bayes.initializeCategory
  by_cases hc : truthy (b.categories.lookup cat)
  · simpa [hc] using h
  · simp only [hc, Bool.false_eq_true, if_false]
    refine ⟨h.vocabTrue, h.vocabNodup, h.vocabSize, ?_, ?_⟩
    · intro cat' hcat'
      have hne : cat' ≠ cat := by
        intro heq
        subst heq
        rw [lookup_setKey_self] at hcat'
        simp [truthy] at hcat'
      have hne' : cat ≠ cat' := fun heq => hne heq.symm
      rw [lookup_setKey_ne _ _ _ _ hne'] at hcat'
      obtain ⟨h1, h2, h3⟩ := h.catDom cat' hcat'
      rw [lookup_setKey_ne _ _ _ _ hne', lookup_setKey_ne _ _ _ _ hne',
        lookup_setKey_ne _ _ _ _ hne']
      exact ⟨h1, h2, h3⟩
    · intro cat' hcat'
      by_cases hca : cat' = cat
      · subst hca
        refine ⟨[], ?_, ?_⟩
        · rw [lookup_setKey_self]
        · rw [lookup_setKey_self]
          simp [sumValues]
      · have hne' : cat ≠ cat' := fun heq => hca heq.symm
        rw [lookup_setKey_ne _ _ _ _ hne'] at hcat'
        obtain ⟨m, h1, h2⟩ := h.conservation cat' hcat'
        rw [lookup_setKey_ne _ _ _ _ hne', lookup_setKey_ne _ _ _ _ hne']
        exact ⟨m, h1, h2⟩

theorem wf_docStep (b : Bayes) (cat : String) (h : WF b)
    (hcat : truthy (b.categories.lookup cat) = true) :
    WF { b with
          docCount := b.docCount.setKey cat ((b.docCount.lookup cat).getD 0 + 1)
          totalDocuments := b.totalDocuments + 1 } := by
  refine ⟨h.vocabTrue, h.vocabNodup, h.vocabSize, ?_, h.conservation⟩
  intro cat' hcat'
  have hne : cat' ≠ cat := by
    intro heq
    subst heq
    simp only at hcat'
    rw [hcat] at hcat'
    exact Bool.true_eq_false.mp hcat'
  have hne' : cat ≠ cat' := fun heq => hne heq.symm
  obtain ⟨h1, h2, h3⟩ := h.catDom cat' hcat'
  exact ⟨by simpa [lookup_setKey_ne _ _ _ _ hne'] using h1, h2, h3⟩

theorem wf_addToVocabulary (b : Bayes) (token : String) (h : WF b) :
    WF (b.addToVocabulary token) := by
  unfold Bayes.addToVocabulary
  by_cases hv : truthy (b.vocabulary.lookup token)
  · simpa [hv] using h
  · simp only [hv, Bool.false_eq_true, if_false]
    have hnone : b.vocabulary.lookup token = none :=
      lookup_none_of_not_truthy _ _ h.vocabTrue (by simpa using hv)
    have hnotmem : token ∉ b.vocabulary.keys :=
      not_mem_keys_of_lookup_none _ _ hnone
    refine ⟨?_, ?_, ?_, h.catDom, h.conservation⟩
    · intro p hp
      rcases mem_setKey _ _ _ _ hp with hp' | hp'
      · exact h.vocabTrue p hp'
      · rw [hp']
    · rw [keys_setKey, hnone]
      simp only [Option.isSome_none, Bool.false_eq_true, if_false]
      simp [List.nodup_append, h.vocabNodup, hnotmem]
    · rw [length_setKey, hnone]
      simp [h.vocabSize]

theorem wf_learnToken (cat : String) (b : Bayes) (e : String × Nat) (h : WF b)
    (hcat : truthy (b.categories.lookup cat) = true) :
    WF (Bayes.learnToken cat b e) := by
  have hv := wf_addToVocabulary b e.1 h
  have hcatv : truthy ((b.addToVocabulary e.1).categories.lookup cat) = true := by
    rw [addToVocabulary_categories]
    exact hcat
  set bv := b.addToVocabulary e.1 with hbv
  unfold Bayes.learnToken
  rw [← hbv]
  refine ⟨hv.vocabTrue, hv.vocabNodup, hv.vocabSize, ?_, ?_⟩
  · intro cat' hcat'
    simp only at hcat'
    have hne : cat' ≠ cat := by
      intro heq
      subst heq
      rw [hcatv] at hcat'
      exact Bool.true_eq_false.mp hcat'
    have hne' : cat ≠ cat' := fun heq => hne heq.symm
    obtain ⟨h1, h2, h3⟩ := hv.catDom cat' hcat'
    exact ⟨h1, by simpa [lookup_setKey_ne _ _ _ _ hne'] using h2,
      by simpa [lookup_setKey_ne _ _ _ _ hne'] using h3⟩
  · intro cat' hcat'
    simp only at hcat'
    by_cases hca : cat' = cat
    · subst hca
      obtain ⟨m, h1, h2⟩ := hv.conservation cat' hcat'
      refine ⟨m.setKey e.1 ((m.lookup e.1).getD 0 + e.2), ?_, ?_⟩
      · simp only [lookup_setKey_self, h1, Option.getD_some]
      · simp only [lookup_setKey_self, h1, h2, Option.getD_some,
          sumValues_setKey_add]
    · have hne' : cat ≠ cat' := fun heq => hca heq.symm
      obtain ⟨m, h1, h2⟩ := hv.conservation cat' hcat'
      exact ⟨m, by simpa [lookup_setKey_ne _ _ _ _ hne'] using h1,
        by simpa [lookup_setKey_ne _ _ _ _ hne'] using h2⟩

theorem wf_foldl_learnToken (cat : String) (l : List (String × Nat)) (b : Bayes)
    (h : WF b) (hcat : truthy (b.categories.lookup cat) = true) :
    WF (l.foldl (Bayes.learnToken cat) b) := by
  induction l generalizing b with
  | nil => exact h
  | cons e rest ih =>
      rw [List.foldl_cons]
      refine ih _ (wf_learnToken cat b e h hcat) ?_
      rw [learnToken_categories]
      exact hcat

theorem wf_learn (b : Bayes) (tokenizer : Tokenizer) (text cat : String)
    (h : WF b) : WF (b.learn tokenizer text cat) := by
  unfold Bayes.learn
  have h1 := wf_initializeCategory b cat h
  have hc1 := truthy_categories_initializeCategory b cat
  exact wf_foldl_learnToken cat _ _ (wf_docStep _ cat h1 hc1) hc1

theorem reachable_wf (b : Bayes) (h : Reachable b) : WF b := by
  induction h with
  | empty => exact wf_empty
  | learn tokenizer text category _ ih => exact wf_learn _ tokenizer text category ih

theorem vocabularySize_le_learnToken (cat : String) (b : Bayes) (e : String × Nat) :
    b.vocabularySize ≤ (Bayes.learnToken cat b e).vocabularySize := by
  unfold Bayes.learnToken Bayes.addToVocabulary
  split <;> simp

theorem vocabularySize_le_foldl (cat : String) (l : List (String × Nat)) (b : Bayes) :
    b.vocabularySize ≤ (l.foldl (Bayes.learnToken cat) b).vocabularySize := by
  induction l generalizing b with
  | nil => exact Nat.le_refl _
  | cons e rest ih =>
      rw [List.foldl_cons]
      exact Nat.le_trans (vocabularySize_le_learnToken cat b e)
        (ih (Bayes.learnToken cat b e))

theorem initializeCategory_vocabularySize (b : Bayes) (cat : String) :
    (b.initializeCategory cat).vocabularySize = b.vocabularySize := by
  unfold Bayes.initializeCategory
  split <;> rfl

theorem vocabularySize_le_learn (b : Bayes) (tokenizer : Tokenizer)
    (text cat : String) :
    b.vocabularySize ≤ (b.learn tokenizer text cat).vocabularySize := by
  simp only [Bayes.learn]
  refine Nat.le_trans ?_ (vocabularySize_le_foldl cat _ _)
  exact Nat.le_of_eq (initializeCategory_vocabularySize b cat).symm

/-- Descending order on finitely-scored results: the order that
"sorted in non-increasing score order" refers to. -/
def FinDesc (x y : CategoryResult) : Prop :=
  ∃ qx qy : ℚ, x.probability = JNum.fin qx ∧ y.probability = JNum.fin qy ∧ qy ≤ qx

theorem insertResult_perm (x : CategoryResult) (l : List CategoryResult) :
    (insertResult x l).Perm (x :: l) := by
  induction l with
  | nil => exact List.Perm.refl _
  | cons y ys ih =>
      unfold insertResult
      split
      · exact List.Perm.refl _
      · exact (List.Perm.cons y ih).trans (List.Perm.swap x y ys)

theorem foldl_insertResult_perm (l : List CategoryResult) :
    ∀ acc : List CategoryResult,
      (l.foldl (fun a x => insertResult x a) acc).Perm (acc ++ l) := by
  induction l with
  | nil => intro acc; simp
  | cons e rest ih =>
      intro acc
      have h1 := ih (insertResult e acc)
      have h2 : (insertResult e acc ++ rest).Perm ((e :: acc) ++ rest) :=
        (insertResult_perm e acc).append_right rest
      have h3 : ((e :: acc) ++ rest).Perm (acc ++ e :: rest) :=
        List.perm_middle.symm
      exact (h1.trans h2).trans h3

theorem sortResults_perm (l : List CategoryResult) : (sortResults l).Perm l := by
  simpa using foldl_insertResult_perm l []

theorem insertResult_sorted (x : CategoryResult)
    (hx : ∃ qx : ℚ, x.probability = JNum.fin qx) :
    ∀ l : List CategoryResult,
      (∀ z ∈ l, ∃ q : ℚ, z.probability = JNum.fin q) →
      l.Pairwise FinDesc → (insertResult x l).Pairwise FinDesc := by
  intro l
  induction l with
  | nil =>
      intro _ _
      simp [insertResult]
  | cons y ys ih =>
      intro hl hs
      obtain ⟨qx, hqx⟩ := hx
      obtain ⟨qy, hqy⟩ := hl y (List.mem_cons_self _ _)
      rw [List.pairwise_cons] at hs
      obtain ⟨hy_all, hys⟩ := hs
      unfold insertResult
      have hguard : JNum.jltz (JNum.jsub y.probability x.probability)
          = decide (qy - qx < 0) := by
        rw [hqy, hqx]
        simp [JNum.jsub, JNum.jadd, JNum.jneg, JNum.jltz, sub_eq_add_neg]
      by_cases hlt : qy < qx
      · rw [if_pos (by rw [hguard]; simpa using sub_neg.mpr hlt)]
        rw [List.pairwise_cons]
        refine ⟨?_, List.pairwise_cons.mpr ⟨hy_all, hys⟩⟩
        intro z hz
        rcases List.mem_cons.mp hz with rfl | hz'
        · exact ⟨qx, qy, hqx, hqy, le_of_lt hlt⟩
        · obtain ⟨qy', qz, hqy', hqz, hle⟩ := hy_all z hz'
          rw [hqy] at hqy'
          obtain rfl : qy = qy' := JNum.fin.inj hqy'
          exact ⟨qx, qz, hqx, hqz, le_trans hle (le_of_lt hlt)⟩
      · rw [if_neg (by rw [hguard]; simpa using fun hc => hlt (sub_neg.mp hc))]
        rw [List.pairwise_cons]
        refine ⟨?_, ih (fun z hz => hl z (List.mem_cons_of_mem _ hz)) hys⟩
        intro z hz
        have hz' : z ∈ x :: ys := (insertResult_perm x ys).mem_iff.mp hz
        rcases List.mem_cons.mp hz' with rfl | hz''
        · exact ⟨qy, qx, hqy, hqx, le_of_not_lt hlt⟩
        · exact hy_all z hz''

theorem foldl_insertResult_sorted (l : List CategoryResult) :
    ∀ acc : List CategoryResult,
      (∀ z ∈ l, ∃ q : ℚ, z.probability = JNum.fin q) →
      (∀ z ∈ acc, ∃ q : ℚ, z.probability = JNum.fin q) →
      acc.Pairwise FinDesc →
      (l.foldl (fun a x => insertResult x a) acc).Pairwise FinDesc := by
  induction l with
  | nil =>
      intro acc _ _ hs
      exact hs
  | cons e rest ih =>
      intro acc hl hacc hs
      refine ih (insertResult e acc)
        (fun z hz => hl z (List.mem_cons_of_mem _ hz)) ?_ ?_
      · intro z hz
        rcases List.mem_cons.mp ((insertResult_perm e acc).mem_iff.mp hz)
            with rfl | hz'
        · exact hl z (List.mem_cons_self _ _)
        · exact hacc z hz'
      · exact insertResult_sorted e (hl e (List.mem_cons_self _ _)) acc hacc hs

theorem sortResults_sorted (l : List CategoryResult)
    (hl : ∀ z ∈ l, ∃ q : ℚ, z.probability = JNum.fin q) :
    (sortResults l).Pairwise FinDesc := by
  unfold sortResults
  exact foldl_insertResult_sorted l [] hl (by simp) (by simp)

/-- Invariant of the `forEach` fold in `categorize` after processing the
category names in `processed`: the result list holds exactly their
scores in order, and either nothing has beaten `-Infinity` yet (only
possible when nothing was processed and every processed score is finite)
or `chosenCategory`/`probability`/`maxProbability` record the first
maximum of the processed scores. -/
abbrev FoldInv (lgf : ℚ → ℚ) (b : Bayes) (ft : StrMap Nat)
    (acc : CategoryResults × JNum) (processed : List String) : Prop :=
  acc.1.categoryResults =
    processed.map (fun c => CategoryResult.mk c (b.categoryScore lgf ft c)) ∧
  ((acc.1.chosenCategory = none ∧ acc.1.probability = none ∧
      acc.2 = JNum.negInf ∧ processed = []) ∨
   (∃ c q, acc.1.chosenCategory = some c ∧
      acc.1.probability = some (JNum.fin q) ∧ acc.2 = JNum.fin q ∧
      c ∈ processed ∧ b.categoryScore lgf ft c = JNum.fin q ∧
      (∀ c' ∈ processed, ∀ q' : ℚ,
        b.categoryScore lgf ft c' = JNum.fin q' → q' ≤ q)))

theorem categorizeStep_eq_pos (lgf : ℚ → ℚ) (b : Bayes) (ft : StrMap Nat)
    (acc : CategoryResults × JNum) (category : String)
    (h : JNum.jgt (b.categoryScore lgf ft category) acc.2 = true) :
    Bayes.categorizeStep lgf b ft acc category =
      ({ chosenCategory := some category
         probability := some (b.categoryScore lgf ft category)
         categoryResults := acc.1.categoryResults ++
           [CategoryResult.mk category (b.categoryScore lgf ft category)] },
       b.categoryScore lgf ft category) := by
  unfold Bayes.categorizeStep
  rw [if_pos h]

theorem categorizeStep_eq_neg (lgf : ℚ → ℚ) (b : Bayes) (ft : StrMap Nat)
    (acc : CategoryResults × JNum) (category : String)
    (h : JNum.jgt (b.categoryScore lgf ft category) acc.2 = false) :
    Bayes.categorizeStep lgf b ft acc category =
      ({ acc.1 with
         categoryResults := acc.1.categoryResults ++
           [CategoryResult.mk category (b.categoryScore lgf ft category)] },
       acc.2) := by
  unfold Bayes.categorizeStep
  rw [if_neg (by simp [h])]

theorem categorizeStep_inv (lgf : ℚ → ℚ) (b : Bayes) (ft : StrMap Nat)
    (processed : List String) (acc : CategoryResults × JNum) (category : String)
    (hinv : FoldInv lgf b ft acc processed)
    (hq : ∃ q : ℚ, b.categoryScore lgf ft category = JNum.fin q) :
    FoldInv lgf b ft (Bayes.categorizeStep lgf b ft acc category)
      (processed ++ [category]) := by
  obtain ⟨q', hq'⟩ := hq
  obtain ⟨hres, hstate⟩ := hinv
  rcases hstate with ⟨hchos, hprob, hmax, hproc⟩ |
      ⟨c, q, hchos, hprob, hmax, hcmem, hcscore, hmaxall⟩
  · subst hproc
    have hcond : JNum.jgt (b.categoryScore lgf ft category) acc.2 = true := by
      rw [hq', hmax]
      rfl
    rw [categorizeStep_eq_pos lgf b ft acc category hcond]
    refine ⟨by simp [hres], Or.inr ⟨category, q', rfl, by rw [hq'], by rw [hq'],
      by simp, hq', ?_⟩⟩
    intro c' hc' q'' hq''
    simp only [List.nil_append, List.mem_singleton] at hc'
    subst hc'
    rw [hq'] at hq''
    exact le_of_eq (JNum.fin.inj hq'').symm
  · by_cases hgt : q' > q
    · have hcond : JNum.jgt (b.categoryScore lgf ft category) acc.2 = true := by
        rw [hq', hmax]
        simpa [JNum.jgt] using hgt
      rw [categorizeStep_eq_pos lgf b ft acc category hcond]
      refine ⟨by simp [hres], Or.inr ⟨category, q', rfl, by rw [hq'], by rw [hq'],
        by simp, hq', ?_⟩⟩
      intro c' hc' q'' hq''
      rcases List.mem_append.mp hc' with hc'' | hc''
      · exact le_of_lt (lt_of_le_of_lt (hmaxall c' hc'' q'' hq'') hgt)
      · simp only [List.mem_singleton] at hc''
        subst hc''
        rw [hq'] at hq''
        exact le_of_eq (JNum.fin.inj hq'').symm
    · have hcond : JNum.jgt (b.categoryScore lgf ft category) acc.2 = false := by
        rw [hq', hmax]
        simpa [JNum.jgt] using hgt
      rw [categorizeStep_eq_neg lgf b ft acc category hcond]
      refine ⟨by simp [hres], Or.inr ⟨c, q, hchos, hprob, hmax,
        List.mem_append_left _ hcmem, hcscore, ?_⟩⟩
      intro c' hc' q'' hq''
      rcases List.mem_append.mp hc' with hc'' | hc''
      · exact hmaxall c' hc'' q'' hq''
      · simp only [List.mem_singleton] at hc''
        subst hc''
        rw [hq'] at hq''
        obtain rfl : q' = q'' := JNum.fin.inj hq''
        exact le_of_not_lt hgt

theorem categorize_foldl_inv (lgf : ℚ → ℚ) (b : Bayes) (ft : StrMap Nat)
    (l processed : List String) (acc : CategoryResults × JNum)
    (hinv : FoldInv lgf b ft acc processed)
    (hfin : ∀ c ∈ l, ∃ q : ℚ, b.categoryScore lgf ft c = JNum.fin q) :
    FoldInv lgf b ft (l.foldl (Bayes.categorizeStep lgf b ft) acc) (processed ++ l) := by
  induction l generalizing acc processed with
  | nil => simpa using hinv
  | cons e rest ih =>
      have hstep := categorizeStep_inv lgf b ft processed acc e hinv
        (hfin e (List.mem_cons_self _ _))
      have := ih (processed ++ [e]) (Bayes.categorizeStep lgf b ft acc e) hstep
        (fun c hc => hfin c (List.mem_cons_of_mem _ hc))
      simpa using this

theorem value_le_sumValues (m : StrMap Nat) (k : String) (v : Nat)
    (h : m.lookup k = some v) : v ≤ sumValues m := by
  have hmem : (k, v) ∈ m := lookup_mem m k v h
  have hv : v ∈ m.map Prod.snd := List.mem_map_of_mem Prod.snd hmem
  exact List.single_le_sum (fun x _ => Nat.zero_le x) v hv

theorem initializeCategory_eq_of_truthy (b : Bayes) (cat : String)
    (h : truthy (b.categories.lookup cat) = true) :
    b.initializeCategory cat = b := by
  unfold Bayes.initializeCategory
  rw [if_pos h]

theorem initializeCategory_totalDocuments (b : Bayes) (cat : String) :
    (b.initializeCategory cat).totalDocuments = b.totalDocuments := by
  unfold Bayes.initializeCategory
  split <;> rfl

theorem initializeCategory_vocabulary (b : Bayes) (cat : String) :
    (b.initializeCategory cat).vocabulary = b.vocabulary := by
  unfold Bayes.initializeCategory
  split <;> rfl

theorem learnToken_wordCount_lookup_self (cat : String) (b : Bayes)
    (e : String × Nat) :
    (Bayes.learnToken cat b e).wordCount.lookup cat
      = some ((b.wordCount.lookup cat).getD 0 + e.2) := by
  unfold Bayes.learnToken
  simp [addToVocabulary_wordCount, lookup_setKey_self]

theorem learnToken_wordFrequencyCount_lookup_self (cat : String) (b : Bayes)
    (e : String × Nat) :
    (Bayes.learnToken cat b e).wordFrequencyCount.lookup cat
      = some (((b.wordFrequencyCount.lookup cat).getD []).setKey e.1
          ((((b.wordFrequencyCount.lookup cat).getD []).lookup e.1).getD 0 + e.2)) := by
  unfold Bayes.learnToken
  simp [addToVocabulary_wordFrequencyCount, lookup_setKey_self]

theorem learnToken_vocabulary_truthy_self (cat : String) (b : Bayes)
    (e : String × Nat) :
    truthy ((Bayes.learnToken cat b e).vocabulary.lookup e.1) = true := by
  show truthy ((b.addToVocabulary e.1).vocabulary.lookup e.1) = true
  unfold Bayes.addToVocabulary
  by_cases hv : truthy (b.vocabulary.lookup e.1)
  · rw [if_pos hv]
    exact hv
  · rw [if_neg (by simpa using hv)]
    simp [lookup_setKey_self, truthy]

end Invariants

/-- C1: across any sequence of `learn` calls from a fresh classifier, for
every category present in `categories`, `wordCount[category]` equals the
sum over all tokens of `wordFrequencyCount[category][token]`. -/
theorem c1_count_conservation (b : Bayes) (hb : Reachable b) (cat : String)
    (hcat : StrMap.truthy (b.categories.lookup cat) = true) :
    ∃ m, b.wordFrequencyCount.lookup cat = some m ∧
      b.wordCount.lookup cat = some (StrMap.sumValues m) :=
  (reachable_wf b hb).conservation cat hcat

/-- C1 witness: a concrete two-`learn` state. -/
theorem c1_witness :
    ∃ m, ((Bayes.empty.learn defaultTokenizer "I love cats" "positive").learn
            defaultTokenizer "I love love" "positive").wordFrequencyCount.lookup
          "positive" = some m ∧
      ((Bayes.empty.learn defaultTokenizer "I love cats" "positive").learn
            defaultTokenizer "I love love" "positive").wordCount.lookup
          "positive" = some (StrMap.sumValues m) :=
  c1_count_conservation _
    (Reachable.learn defaultTokenizer "I love love" "positive"
      (Reachable.learn defaultTokenizer "I love cats" "positive" Reachable.empty))
    "positive" (by decide)

/-- C2: in every reachable state, for a category present in `categories`,
`tokenProbability` returns exactly
`(frequency + 1) / (totalWords + vocabularySize)` (as a finite number,
with `frequency` the entry of `wordFrequencyCount[category]` defaulting to
0 and `totalWords = wordCount[category]`), and when `vocabularySize ≥ 1`
this value is strictly greater than 0 and at most 1. -/
theorem c2_tokenProbability (b : Bayes) (hb : Reachable b) (token cat : String)
    (hcat : StrMap.truthy (b.categories.lookup cat) = true)
    (hv : 1 ≤ b.vocabularySize) :
    ∃ frequency totalWords : Nat,
      frequency = (((b.wordFrequencyCount.lookup cat).getD []).lookup token).getD 0 ∧
      b.wordCount.lookup cat = some totalWords ∧
      b.tokenProbability token cat =
        JNum.fin (((frequency : ℚ) + 1) / ((totalWords : ℚ) + (b.vocabularySize : ℚ))) ∧
      0 < ((frequency : ℚ) + 1) / ((totalWords : ℚ) + (b.vocabularySize : ℚ)) ∧
      ((frequency : ℚ) + 1) / ((totalWords : ℚ) + (b.vocabularySize : ℚ)) ≤ 1 := by
  obtain ⟨m, hm, hw⟩ := (reachable_wf b hb).conservation cat hcat
  have hfreq : (m.lookup token).getD 0 ≤ StrMap.sumValues m := by
    cases hlk : m.lookup token with
    | none => simp
    | some v => simpa using value_le_sumValues m token v hlk
  have hden : (0 : ℚ) < (StrMap.sumValues m : ℚ) + (b.vocabularySize : ℚ) := by
    have : (1 : ℚ) ≤ (b.vocabularySize : ℚ) := by exact_mod_cast hv
    have hnn : (0 : ℚ) ≤ (StrMap.sumValues m : ℚ) := by positivity
    linarith
  refine ⟨(m.lookup token).getD 0, StrMap.sumValues m, by rw [hm]; simp, hw, ?_, ?_, ?_⟩
  · unfold Bayes.tokenProbability
    rw [hm, hw]
    simp only [Option.getD_some, JNum.ofLookup, JNum.jadd, JNum.jdiv]
    rw [if_neg (by linarith)]
  · apply div_pos _ hden
    positivity
  · rw [div_le_one hden]
    have h1 : ((m.lookup token).getD 0 : ℚ) ≤ (StrMap.sumValues m : ℚ) := by
      exact_mod_cast hfreq
    have h2 : (1 : ℚ) ≤ (b.vocabularySize : ℚ) := by exact_mod_cast hv
    linarith

/-- C2 witness: a concrete trained state, with a token present in the
category and the probability evaluated. -/
theorem c2_witness :
    ∃ frequency totalWords : Nat,
      frequency = ((((Bayes.empty.learn defaultTokenizer "I love cats"
          "positive").wordFrequencyCount.lookup "positive").getD []).lookup
          "love").getD 0 ∧
      (Bayes.empty.learn defaultTokenizer "I love cats"
          "positive").wordCount.lookup "positive" = some totalWords ∧
      (Bayes.empty.learn defaultTokenizer "I love cats"
          "positive").tokenProbability "love" "positive" =
        JNum.fin (((frequency : ℚ) + 1) / ((totalWords : ℚ) +
          ((Bayes.empty.learn defaultTokenizer "I love cats"
            "positive").vocabularySize : ℚ))) ∧
      0 < ((frequency : ℚ) + 1) / ((totalWords : ℚ) +
          ((Bayes.empty.learn defaultTokenizer "I love cats"
            "positive").vocabularySize : ℚ)) ∧
      ((frequency : ℚ) + 1) / ((totalWords : ℚ) +
          ((Bayes.empty.learn defaultTokenizer "I love cats"
            "positive").vocabularySize : ℚ)) ≤ 1 :=
  c2_tokenProbability _
    (Reachable.learn defaultTokenizer "I love cats" "positive" Reachable.empty)
    "love" "positive" (by decide) (by decide)

/-- C8 amended: `learn` with empty text is accepted: the category is
ensured, `docCount[category]` and `totalDocuments` increment by 1 — but
the empty text tokenizes to the single empty-string token `""` (not to an
empty sequence), so `wordFrequencyCount[category][""]` and
`wordCount[category]` are also incremented by 1 and `""` joins the
vocabulary; entries for all other tokens are untouched. -/
theorem c8_amended (b : Bayes) (category : String) (hb : Reachable b) :
    (b.learn defaultTokenizer "" category).totalDocuments
        = b.totalDocuments + 1 ∧
    (b.learn defaultTokenizer "" category).docCount.lookup category
        = some ((b.docCount.lookup category).getD 0 + 1) ∧
    (b.learn defaultTokenizer "" category).wordCount.lookup category
        = some ((b.wordCount.lookup category).getD 0 + 1) ∧
    (b.learn defaultTokenizer "" category).wordFrequencyCount.lookup category
        = some (((b.wordFrequencyCount.lookup category).getD []).setKey ""
            ((((b.wordFrequencyCount.lookup category).getD []).lookup "").getD 0 + 1)) ∧
    StrMap.truthy ((b.learn defaultTokenizer "" category).vocabulary.lookup "")
        = true ∧
    (∀ t, t ≠ "" →
      (((b.learn defaultTokenizer "" category).wordFrequencyCount.lookup
          category).getD []).lookup t
        = ((b.wordFrequencyCount.lookup category).getD []).lookup t) := by
  have hwf := reachable_wf b hb
  have heq : b.learn defaultTokenizer "" category =
      Bayes.learnToken category
        { b.initializeCategory category with
          docCount := (b.initializeCategory category).docCount.setKey category
            (((b.initializeCategory category).docCount.lookup category).getD 0 + 1)
          totalDocuments := (b.initializeCategory category).totalDocuments + 1 }
        ("", 1) := rfl
  set b1 := b.initializeCategory category with hb1
  set b2 : Bayes :=
    { b1 with
      docCount := b1.docCount.setKey category
        ((b1.docCount.lookup category).getD 0 + 1)
      totalDocuments := b1.totalDocuments + 1 } with hb2
  have hdoc : (b1.docCount.lookup category).getD 0
      = (b.docCount.lookup category).getD 0 := by
    by_cases hcat : StrMap.truthy (b.categories.lookup category)
    · rw [hb1, initializeCategory_eq_of_truthy b category hcat]
    · have hnone := (hwf.catDom category (by simpa using hcat)).1
      rw [hb1]
      unfold Bayes.initializeCategory
      rw [if_neg (by simpa using hcat)]
      simp [StrMap.lookup_setKey_self, hnone]
  have hwc : (b1.wordCount.lookup category).getD 0
      = (b.wordCount.lookup category).getD 0 := by
    by_cases hcat : StrMap.truthy (b.categories.lookup category)
    · rw [hb1, initializeCategory_eq_of_truthy b category hcat]
    · have hnone := (hwf.catDom category (by simpa using hcat)).2.1
      rw [hb1]
      unfold Bayes.initializeCategory
      rw [if_neg (by simpa using hcat)]
      simp [StrMap.lookup_setKey_self, hnone]
  have hwfc : (b1.wordFrequencyCount.lookup category).getD []
      = (b.wordFrequencyCount.lookup category).getD [] := by
    by_cases hcat : StrMap.truthy (b.categories.lookup category)
    · rw [hb1, initializeCategory_eq_of_truthy b category hcat]
    · have hnone := (hwf.catDom category (by simpa using hcat)).2.2
      rw [hb1]
      unfold Bayes.initializeCategory
      rw [if_neg (by simpa using hcat)]
      simp [StrMap.lookup_setKey_self, hnone]
  have h4 : (b.learn defaultTokenizer "" category).wordFrequencyCount.lookup
      category
      = some (((b.wordFrequencyCount.lookup category).getD []).setKey ""
          ((((b.wordFrequencyCount.lookup category).getD []).lookup "").getD 0 + 1)) := by
    rw [heq, learnToken_wordFrequencyCount_lookup_self]
    have : b2.wordFrequencyCount = b1.wordFrequencyCount := rfl
    rw [this, hwfc]
  refine ⟨?_, ?_, ?_, h4, ?_, ?_⟩
  · rw [heq, learnToken_totalDocuments]
    have : b2.totalDocuments = b1.totalDocuments + 1 := rfl
    rw [this, hb1, initializeCategory_totalDocuments]
  · rw [heq, learnToken_docCount]
    have : b2.docCount = b1.docCount.setKey category
        ((b1.docCount.lookup category).getD 0 + 1) := rfl
    rw [this, StrMap.lookup_setKey_self, hdoc]
  · rw [heq, learnToken_wordCount_lookup_self]
    have : b2.wordCount = b1.wordCount := rfl
    rw [this, hwc]
  · rw [heq]
    exact learnToken_vocabulary_truthy_self category b2 ("", 1)
  · intro t ht
    rw [h4]
    simp only [Option.getD_some]
    exact StrMap.lookup_setKey_ne _ _ _ _ (fun hh => ht hh.symm)

/-- C8 amended witness: the fresh classifier at category "spam". -/
theorem c8_amended_witness :
    (Bayes.empty.learn defaultTokenizer "" "spam").totalDocuments
        = Bayes.empty.totalDocuments + 1 ∧
    (Bayes.empty.learn defaultTokenizer "" "spam").docCount.lookup "spam"
        = some ((Bayes.empty.docCount.lookup "spam").getD 0 + 1) :=
  ⟨(c8_amended Bayes.empty "spam" Reachable.empty).1,
   (c8_amended Bayes.empty "spam" Reachable.empty).2.1⟩

section JsonLayer

/-- JSON value trees as produced by `JSON.parse`.  Number literals are
kept as their lexemes: the numeric value plays no role in the claims
(the classifier only ever serializes naturals, rendered in decimal, and
deserialization re-reads them with `decodeNatLit`). -/
inductive Json where
  | null
  | bool (b : Bool)
  | num (lit : String)
  | str (s : String)
  | arr (elems : List Json)
  | obj (fields : List (String × Json))
deriving Repr

/-- JSON whitespace (as accepted by `JSON.parse`): space, tab, newline,
carriage return. -/
def isJsonWs (c : Char) : Bool :=
  c = ' ' || c = '\t' || c = '\n' || c = '\r'

/-- Skip insignificant whitespace. -/
def skipJsonWs (cs : List Char) : List Char := cs.dropWhile isJsonWs

def isDigitChar (c : Char) : Bool := '0' ≤ c && c ≤ '9'

/-- Lower-case hex digit for `n < 16` (as emitted by `JSON.stringify` in
`\u00xx` escapes). -/
def hexDigitChar (n : Nat) : Char :=
  if n < 10 then Char.ofNat (48 + n) else Char.ofNat (87 + n)

/-- `JSON.stringify` escaping of one string character: `"` and `\` get a
backslash, the five short control escapes are used where they exist, the
remaining control characters become `\u00xx`, everything else is emitted
verbatim. -/
def escChar (c : Char) : List Char :=
  if c = '"' then ['\\', '"']
  else if c = '\\' then ['\\', '\\']
  else if c.toNat = 8 then ['\\', 'b']
  else if c.toNat = 9 then ['\\', 't']
  else if c.toNat = 10 then ['\\', 'n']
  else if c.toNat = 12 then ['\\', 'f']
  else if c.toNat = 13 then ['\\', 'r']
  else if c.toNat < 32 then
    ['\\', 'u', '0', '0', hexDigitChar (c.toNat / 16), hexDigitChar (c.toNat % 16)]
  else [c]

/-- `JSON.stringify` rendering of a string, quotes included. -/
def renderString (s : String) : List Char :=
  '"' :: ((s.data.map escChar).flatten ++ ['"'])

/-- Decimal digits of a natural, most significant first (how
`JSON.stringify` renders the classifier's counters). -/
def natLitChars (n : Nat) : List Char :=
  if n = 0 then ['0']
  else (Nat.digits 10 n).reverse.map (fun d => Char.ofNat (48 + d))

def natLitString (n : Nat) : String := String.mk (natLitChars n)

mutual

/-- `JSON.stringify` rendering of a value (no insignificant whitespace,
matching the JavaScript output). -/
def Json.render : Json → List Char
  | .null => 'n' :: ['u', 'l', 'l']
  | .bool true => 't' :: ['r', 'u', 'e']
  | .bool false => 'f' :: ['a', 'l', 's', 'e']
  | .num lit => lit.data
  | .str s => renderString s
  | .arr es => '[' :: (renderElems es ++ [']'])
  | .obj fs => '\x7b' :: (renderFields fs ++ ['\x7d'])

/-- Comma-separated rendering of array elements. -/
def renderElems : List Json → List Char
  | [] => []
  | [e] => e.render
  | e :: es => e.render ++ ',' :: renderElems es

/-- Comma-separated rendering of object fields. -/
def renderFields : List (String × Json) → List Char
  | [] => []
  | [(k, v)] => renderString k ++ ':' :: v.render
  | (k, v) :: fs => renderString k ++ ':' :: v.render ++ ',' :: renderFields fs

end

def hexVal (c : Char) : Option Nat :=
  if '0' ≤ c ∧ c ≤ '9' then some (c.toNat - 48)
  else if 'a' ≤ c ∧ c ≤ 'f' then some (c.toNat - 87)
  else if 'A' ≤ c ∧ c ≤ 'F' then some (c.toNat - 55)
  else none

/-- Parse the body of a JSON string (after the opening quote), with the
characters read so far in `acc` (reversed).  Raw control characters are
rejected, escapes are decoded; a `\uXXXX` escape denoting a value
outside the Unicode scalar range maps to the null scalar (Lean strings
cannot hold lone surrogates; no claim depends on such inputs). -/
def parseStringBody : List Char → List Char → Option (String × List Char)
  | [], _ => none
  | c :: rest, acc =>
      if c = '"' then some (String.mk acc.reverse, rest)
      else if c = '\\' then
        match rest with
        | [] => none
        | e :: r =>
            if e = '"' then parseStringBody r ('"' :: acc)
            else if e = '\\' then parseStringBody r ('\\' :: acc)
            else if e = '/' then parseStringBody r ('/' :: acc)
            else if e = 'b' then parseStringBody r (Char.ofNat 8 :: acc)
            else if e = 'f' then parseStringBody r (Char.ofNat 12 :: acc)
            else if e = 'n' then parseStringBody r (Char.ofNat 10 :: acc)
            else if e = 'r' then parseStringBody r (Char.ofNat 13 :: acc)
            else if e = 't' then parseStringBody r (Char.ofNat 9 :: acc)
            else if e = 'u' then
              match r with
              | h1 :: h2 :: h3 :: h4 :: r2 =>
                  match hexVal h1, hexVal h2, hexVal h3, hexVal h4 with
                  | some a, some b, some c2, some d =>
                      parseStringBody r2
                        (Char.ofNat (((a * 16 + b) * 16 + c2) * 16 + d) :: acc)
                  | _, _, _, _ => none
              | _ => none
            else none
      else if c.toNat < 32 then none
      else parseStringBody rest (c :: acc)

/-- Exponent part of a JSON number (or nothing). -/
def parseExpPart (acc : List Char) (cs : List Char) :
    Option (String × List Char) :=
  if cs.head? = some 'e' ∨ cs.head? = some 'E' then
    let e := cs.head?.getD 'e'
    let r := cs.tail
    let signAndRest :=
      if r.head? = some '+' ∨ r.head? = some '-' then
        (([r.head?.getD '+'] : List Char), r.tail)
      else (([] : List Char), r)
    let ds := signAndRest.2.takeWhile isDigitChar
    if ds = [] then none
    else some (String.mk (acc ++ e :: (signAndRest.1 ++ ds)),
      signAndRest.2.dropWhile isDigitChar)
  else some (String.mk acc, cs)

/-- Fraction part of a JSON number (or nothing), then the exponent. -/
def parseFracPart (acc : List Char) (cs : List Char) :
    Option (String × List Char) :=
  if cs.head? = some '.' then
    let ds := cs.tail.takeWhile isDigitChar
    if ds = [] then none
    else parseExpPart (acc ++ '.' :: ds) (cs.tail.dropWhile isDigitChar)
  else parseExpPart acc cs

/-- The integer-digit part of a JSON number: `0` (with no digit allowed
after it — leading zeros are rejected, as by `JSON.parse`) or
`[1-9][0-9]*`. -/
def parseIntDigits : List Char → Option (List Char × List Char)
  | [] => none
  | c :: r =>
      if c = '0' then
        if (r.head?.map isDigitChar).getD false then none
        else some (['0'], r)
      else if isDigitChar c then
        some ((c :: r).takeWhile isDigitChar, (c :: r).dropWhile isDigitChar)
      else none

/-- Lex a JSON number (grammar `-? (0 | [1-9][0-9]*) frac? exp?`),
returning the lexeme. -/
def parseNumber (cs : List Char) : Option (String × List Char) :=
  let sign : List Char := if cs.head? = some '-' then ['-'] else []
  let cs1 := if cs.head? = some '-' then cs.tail else cs
  match parseIntDigits cs1 with
  | none => none
  | some (ds, r) => parseFracPart (sign ++ ds) r

mutual

/-- Recursive-descent parser for JSON values (the model of `JSON.parse`).
The `fuel` argument only bounds recursion depth; `parseJson` supplies
enough for its input. -/
def parseValue : Nat → List Char → Option (Json × List Char)
  | 0, _ => none
  | fuel + 1, cs =>
      match skipJsonWs cs with
      | [] => none
      | c :: rest =>
          if c = 'n' then
            match rest with
            | 'u' :: 'l' :: 'l' :: r => some (.null, r)
            | _ => none
          else if c = 't' then
            match rest with
            | 'r' :: 'u' :: 'e' :: r => some (.bool true, r)
            | _ => none
          else if c = 'f' then
            match rest with
            | 'a' :: 'l' :: 's' :: 'e' :: r => some (.bool false, r)
            | _ => none
          else if c = '"' then
            match parseStringBody rest [] with
            | some (s, r) => some (.str s, r)
            | none => none
          else if c = '[' then
            let cs' := skipJsonWs rest
            if cs'.head? = some ']' then some (.arr [], cs'.tail)
            else parseElems fuel cs' []
          else if c = '\x7b' then
            let cs' := skipJsonWs rest
            if cs'.head? = some '\x7d' then some (.obj [], cs'.tail)
            else parseFields fuel cs' []
          else if c = '-' || isDigitChar c then
            match parseNumber (c :: rest) with
            | some (lit, r) => some (.num lit, r)
            | none => none
          else none

/-- Array elements: value (`,` value)* `]`, with elements read so far in
`acc` (reversed). -/
def parseElems : Nat → List Char → List Json → Option (Json × List Char)
  | 0, _, _ => none
  | fuel + 1, cs, acc =>
      match parseValue fuel cs with
      | none => none
      | some (v, r) =>
          match skipJsonWs r with
          | ',' :: r2 => parseElems fuel r2 (v :: acc)
          | ']' :: r2 => some (.arr (v :: acc).reverse, r2)
          | _ => none

/-- Object fields: string `:` value (`,` string `:` value)* `}`, with the
fields read so far in `acc` (reversed). -/
def parseFields : Nat → List Char → List (String × Json) →
    Option (Json × List Char)
  | 0, _, _ => none
  | fuel + 1, cs, acc =>
      match skipJsonWs cs with
      | '"' :: r =>
          match parseStringBody r [] with
          | none => none
          | some (k, r2) =>
              match skipJsonWs r2 with
              | ':' :: r3 =>
                  match parseValue fuel r3 with
                  | none => none
                  | some (v, r4) =>
                      match skipJsonWs r4 with
                      | ',' :: r5 => parseFields fuel r5 ((k, v) :: acc)
                      | '\x7d' :: r5 => some (.obj ((k, v) :: acc).reverse, r5)
                      | _ => none
              | _ => none
      | _ => none

end

/-- `JSON.parse`: a complete value with only whitespace around it. -/
def parseJson (s : String) : Option Json :=
  match parseValue (2 * s.data.length + 2) s.data with
  | some (j, rest) => if skipJsonWs rest = [] then some j else none
  | none => none

/-- Decimal digit value of a char. -/
def digitVal (c : Char) : Nat := c.toNat - 48

/-- Read back a decimal natural (how the deserialized classifier's
counter fields are interpreted; non-numeric garbage decodes to 0, which
no claim observes). -/
def decodeNatLit (cs : List Char) : Nat :=
  cs.foldl (fun acc c => acc * 10 + digitVal c) 0

/-- Object field access `parsed[k]`. -/
def Json.getField (j : Json) (k : String) : Option Json :=
  match j with
  | .obj fs => StrMap.lookup fs k
  | _ => none

def encodeMapNat (m : StrMap Nat) : Json :=
  .obj (m.map (fun p => (p.1, Json.num (natLitString p.2))))

def encodeMapBool (m : StrMap Bool) : Json :=
  .obj (m.map (fun p => (p.1, Json.bool p.2)))

def encodeMapMapNat (m : StrMap (StrMap Nat)) : Json :=
  .obj (m.map (fun p => (p.1, encodeMapNat p.2)))

def decodeNum : Json → Nat
  | .num lit => decodeNatLit lit.data
  | _ => 0

def decodeNat (j : Option Json) : Nat :=
  match j with
  | some v => decodeNum v
  | none => 0

def decodeMapNat (j : Option Json) : StrMap Nat :=
  match j with
  | some (.obj fs) => fs.map (fun p => (p.1, decodeNum p.2))
  | _ => []

def decodeMapBool (j : Option Json) : StrMap Bool :=
  match j with
  | some (.obj fs) =>
      fs.map (fun p => (p.1, match p.2 with | .bool b => b | _ => false))
  | _ => []

def decodeMapMapNat (j : Option Json) : StrMap (StrMap Nat) :=
  match j with
  | some (.obj fs) => fs.map (fun p => (p.1, decodeMapNat (some p.2)))
  | _ => []

namespace Bayes

/-- The JSON tree `JSON.stringify(this)` produces: the data fields in
class field order; the `tokenizer` function is skipped (functions are not
JSON data) and the `options` bag is rendered as an empty object (its only
modelled content is the tokenizer). -/
def toJsonValue (b : Bayes) : Json :=
  .obj [("docCount", encodeMapNat b.docCount),
        ("wordCount", encodeMapNat b.wordCount),
        ("wordFrequencyCount", encodeMapMapNat b.wordFrequencyCount),
        ("categories", encodeMapBool b.categories),
        ("totalDocuments", Json.num (natLitString b.totalDocuments)),
        ("vocabularySize", Json.num (natLitString b.vocabularySize)),
        ("options", Json.obj []),
        ("vocabulary", encodeMapBool b.vocabulary)]

/-- `toJson()`: `JSON.stringify(this)`. -/
def toJson (b : Bayes) : String := String.mk (Json.render (toJsonValue b))

/-- The two ways `fromJson` can throw: the guarded `JSON.parse` failure
(rethrown as `Error("bayes.fromJson expects a valid JSON string.")`) and
the unguarded `TypeError` from reading `parsed.options` when the parse
result is `null`. -/
inductive JsError where
  | formatError
  | typeError
deriving Repr, DecidableEq

/-- `new Bayes(parsed, parsed.options)` on a parse result.  Reading
`parsed.options` throws a `TypeError` when `parsed` is `null`.  Otherwise
every data field is adopted from `parsed`; fields that are absent or not
of the serialized shape decode to the empty/zero defaults (in JavaScript
a falsy `parsed` yields exactly these defaults, and a truthy non-object
leaves the fields `undefined` — a state no claim observes). -/
def fromParsed : Json → Except JsError Bayes
  | Json.null => Except.error JsError.typeError
  | j =>
      Except.ok
        { docCount := decodeMapNat (j.getField "docCount")
          wordCount := decodeMapNat (j.getField "wordCount")
          wordFrequencyCount := decodeMapMapNat (j.getField "wordFrequencyCount")
          categories := decodeMapBool (j.getField "categories")
          totalDocuments := decodeNat (j.getField "totalDocuments")
          vocabularySize := decodeNat (j.getField "vocabularySize")
          vocabulary := decodeMapBool (j.getField "vocabulary") }

/-- `Bayes.fromJson(jsonStr)`: parse inside `try/catch` (a parse failure
becomes the format error), then construct the classifier from the parse
result. -/
def fromJson (s : String) : Except JsError Bayes :=
  match parseJson s with
  | none => Except.error JsError.formatError
  | some j => fromParsed j

end Bayes

theorem char_ofNat_toNat (c : Char) : Char.ofNat c.toNat = c := by
  have hv : c.toNat.isValidChar := c.valid
  unfold Char.ofNat
  rw [dif_pos hv]
  apply Char.eq_of_val_eq
  apply UInt32.ext
  simp [Char.ofNatAux, Char.toNat, UInt32.toNat, BitVec.toNat_ofNatLt]

theorem char_toNat_ofNat_lt (n : Nat) (h : n < 0xD800) :
    (Char.ofNat n).toNat = n := by
  have hv : n.isValidChar := Or.inl h
  unfold Char.ofNat
  rw [dif_pos hv]
  simp [Char.ofNatAux, Char.toNat, UInt32.toNat, BitVec.toNat_ofNatLt]

theorem char_le_iff (a b : Char) : a ≤ b ↔ a.toNat ≤ b.toNat := Iff.rfl

theorem char_eq_iff_toNat (a b : Char) : a = b ↔ a.toNat = b.toNat :=
  ⟨fun h => by rw [h], fun h => Char.eq_of_val_eq (UInt32.ext h)⟩

theorem isDigitChar_iff (c : Char) :
    isDigitChar c = true ↔ 48 ≤ c.toNat ∧ c.toNat ≤ 57 := by
  unfold isDigitChar
  rw [Bool.and_eq_true, decide_eq_true_eq, decide_eq_true_eq,
    char_le_iff, char_le_iff]
  exact Iff.rfl

theorem takeWhile_append_all (p : Char → Bool) (l1 l2 : List Char)
    (h1 : ∀ c ∈ l1, p c = true)
    (h2 : ∀ c, l2.head? = some c → p c = false) :
    (l1 ++ l2).takeWhile p = l1 ∧ (l1 ++ l2).dropWhile p = l2 := by
  induction l1 with
  | nil =>
      simp only [List.nil_append]
      cases l2 with
      | nil => simp
      | cons c l2' =>
          have := h2 c rfl
          simp [List.takeWhile_cons, List.dropWhile_cons, this]
  | cons c l1' ih =>
      have hc := h1 c (List.mem_cons_self _ _)
      have := ih (fun x hx => h1 x (List.mem_cons_of_mem _ hx))
      simp [List.takeWhile_cons, List.dropWhile_cons, hc, this.1, this.2]

theorem skipJsonWs_eq_of_head (cs : List Char)
    (h : ∀ c, cs.head? = some c → isJsonWs c = false) :
    skipJsonWs cs = cs := by
  cases cs with
  | nil => rfl
  | cons c cs' =>
      have := h c rfl
      simp [skipJsonWs, List.dropWhile_cons, this]

theorem natLitChars_ne_nil (n : Nat) : natLitChars n ≠ [] := by
  unfold natLitChars
  by_cases h : n = 0
  · simp [h]
  · have hd : Nat.digits 10 n ≠ [] := Nat.digits_ne_nil_iff_ne_zero.mpr h
    simp only [h, if_false]
    intro hc
    apply hd
    have := congrArg List.length hc
    simpa using List.length_eq_zero.mp (by simpa using this)

theorem natLitChars_all_digits (n : Nat) :
    ∀ c ∈ natLitChars n, isDigitChar c = true := by
  intro c hc
  unfold natLitChars at hc
  by_cases h : n = 0
  · simp [h] at hc
    subst hc
    decide
  · simp only [h, if_false, List.mem_map, List.mem_reverse] at hc
    obtain ⟨d, hd, rfl⟩ := hc
    have hdlt : d < 10 := Nat.digits_lt_base (by norm_num) hd
    rw [isDigitChar_iff, char_toNat_ofNat_lt _ (by omega)]
    omega

theorem digits_foldl_decode (ds : List Nat) (hds : ∀ d ∈ ds, d < 10)
    (a : Nat) :
    ((ds.reverse.map fun d => Char.ofNat (48 + d)).foldl
      (fun acc c => acc * 10 + digitVal c) a)
      = a * 10 ^ ds.length + Nat.ofDigits 10 ds := by
  induction ds generalizing a with
  | nil => simp
  | cons d ds' ih =>
      have hd : d < 10 := hds d (List.mem_cons_self _ _)
      have hds' : ∀ x ∈ ds', x < 10 := fun x hx => hds x (List.mem_cons_of_mem _ hx)
      rw [List.reverse_cons, List.map_append, List.foldl_append, ih hds']
      simp only [List.map_cons, List.map_nil, List.foldl_cons, List.foldl_nil]
      have hdv : digitVal (Char.ofNat (48 + d)) = d := by
        unfold digitVal
        rw [char_toNat_ofNat_lt _ (by omega)]
        omega
      rw [hdv, Nat.ofDigits_cons, List.length_cons]
      ring

theorem decodeNatLit_natLitChars (n : Nat) :
    decodeNatLit (natLitChars n) = n := by
  unfold decodeNatLit natLitChars
  by_cases h : n = 0
  · simp [h]
    decide
  · simp only [h, if_false]
    have hds : ∀ d ∈ Nat.digits 10 n, d < 10 :=
      fun d hd => Nat.digits_lt_base (by norm_num) hd
    rw [digits_foldl_decode _ hds 0]
    simp [Nat.ofDigits_digits]

/-- The continuations a rendered value can be followed by inside a
rendered JSON document (or the end of input): none of them can extend a
number lexeme. -/
def SafeRest (rest : List Char) : Prop :=
  match rest with
  | [] => True
  | c :: _ => c = ',' ∨ c = ']' ∨ c = '\x7d'

mutual

/-- Number literals appearing in a JSON tree are decimal naturals (true
of every tree the classifier serializes). -/
def NumsOK : Json → Prop
  | .num lit => ∃ n : Nat, lit = natLitString n
  | .arr es => NumsOKList es
  | .obj fs => NumsOKFields fs
  | _ => True

def NumsOKList : List Json → Prop
  | [] => True
  | e :: es => NumsOK e ∧ NumsOKList es

def NumsOKFields : List (String × Json) → Prop
  | [] => True
  | (_, v) :: fs => NumsOK v ∧ NumsOKFields fs

end

theorem hexVal_hexDigitChar (d : Nat) (h : d < 16) :
    hexVal (hexDigitChar d) = some d := by
  have c0 : '0'.toNat = 48 := rfl
  have c9 : '9'.toNat = 57 := rfl
  have ca : 'a'.toNat = 97 := rfl
  have cf : 'f'.toNat = 102 := rfl
  unfold hexVal hexDigitChar
  by_cases h10 : d < 10
  · rw [if_pos h10]
    have ht : (Char.ofNat (48 + d)).toNat = 48 + d :=
      char_toNat_ofNat_lt _ (by omega)
    rw [if_pos (by rw [char_le_iff, char_le_iff, ht, c0, c9]; omega)]
    rw [ht]
    congr 1
    omega
  · rw [if_neg h10]
    have ht : (Char.ofNat (87 + d)).toNat = 87 + d :=
      char_toNat_ofNat_lt _ (by omega)
    rw [if_neg (by rw [char_le_iff, char_le_iff, ht, c0, c9]; omega)]
    rw [if_pos (by rw [char_le_iff, char_le_iff, ht, ca, cf]; omega)]
    rw [ht]
    congr 1
    omega

theorem parseStringBody_close (L acc : List Char) :
    parseStringBody ('"' :: L) acc = some (String.mk acc.reverse, L) := by
  rw [parseStringBody.eq_def]
  simp

theorem parseStringBody_esc_quote (L acc : List Char) :
    parseStringBody ('\\' :: '"' :: L) acc = parseStringBody L ('"' :: acc) := by
  rw [parseStringBody.eq_def]
  simp

theorem parseStringBody_esc_backslash (L acc : List Char) :
    parseStringBody ('\\' :: '\\' :: L) acc = parseStringBody L ('\\' :: acc) := by
  rw [parseStringBody.eq_def]
  simp

theorem parseStringBody_esc_b (L acc : List Char) :
    parseStringBody ('\\' :: 'b' :: L) acc
      = parseStringBody L (Char.ofNat 8 :: acc) := by
  rw [parseStringBody.eq_def]
  simp

theorem parseStringBody_esc_t (L acc : List Char) :
    parseStringBody ('\\' :: 't' :: L) acc
      = parseStringBody L (Char.ofNat 9 :: acc) := by
  rw [parseStringBody.eq_def]
  simp

theorem parseStringBody_esc_n (L acc : List Char) :
    parseStringBody ('\\' :: 'n' :: L) acc
      = parseStringBody L (Char.ofNat 10 :: acc) := by
  rw [parseStringBody.eq_def]
  simp

theorem parseStringBody_esc_f (L acc : List Char) :
    parseStringBody ('\\' :: 'f' :: L) acc
      = parseStringBody L (Char.ofNat 12 :: acc) := by
  rw [parseStringBody.eq_def]
  simp

theorem parseStringBody_esc_r (L acc : List Char) :
    parseStringBody ('\\' :: 'r' :: L) acc
      = parseStringBody L (Char.ofNat 13 :: acc) := by
  rw [parseStringBody.eq_def]
  simp

theorem parseStringBody_esc_u (h3 h4 : Char) (a b : Nat)
    (hh3 : hexVal h3 = some a) (hh4 : hexVal h4 = some b) (L acc : List Char) :
    parseStringBody ('\\' :: 'u' :: '0' :: '0' :: h3 :: h4 :: L) acc
      = parseStringBody L (Char.ofNat (((0 * 16 + 0) * 16 + a) * 16 + b) :: acc) := by
  rw [parseStringBody.eq_def]
  simp only [show hexVal '0' = some 0 from rfl, hh3, hh4]
  simp

theorem parseStringBody_raw (c : Char) (L acc : List Char)
    (h1 : ¬c = '"') (h2 : ¬c = '\\') (h3 : ¬c.toNat < 32) :
    parseStringBody (c :: L) acc = parseStringBody L (c :: acc) := by
  rw [parseStringBody.eq_def]
  simp [h1, h2, h3]

theorem parseStringBody_render (cs : List Char) :
    ∀ acc rest, parseStringBody ((cs.map escChar).flatten ++ '"' :: rest) acc
      = some (String.mk (acc.reverse ++ cs), rest) := by
  induction cs with
  | nil =>
      intro acc rest
      simp only [List.map_nil, List.flatten_nil, List.nil_append,
        parseStringBody_close, List.append_nil]
  | cons c cs' ih =>
      intro acc rest
      have hfin : ∀ acc', acc' = c :: acc →
          parseStringBody ((cs'.map escChar).flatten ++ '"' :: rest) acc'
            = some (String.mk (acc.reverse ++ c :: cs'), rest) := by
        intro acc' hacc'
        subst hacc'
        rw [ih (c :: acc) rest]
        congr 2
        simp
      simp only [List.map_cons, List.flatten_cons, List.append_assoc]
      unfold escChar
      by_cases h1 : c = '"'
      · subst h1
        rw [if_pos rfl]
        show parseStringBody ('\\' :: '"' :: _) acc = _
        rw [parseStringBody_esc_quote]
        exact hfin _ rfl
      · rw [if_neg h1]
        by_cases h2 : c = '\\'
        · subst h2
          rw [if_pos rfl]
          show parseStringBody ('\\' :: '\\' :: _) acc = _
          rw [parseStringBody_esc_backslash]
          exact hfin _ rfl
        · rw [if_neg h2]
          by_cases h8 : c.toNat = 8
          · rw [if_pos h8]
            show parseStringBody ('\\' :: 'b' :: _) acc = _
            rw [parseStringBody_esc_b]
            refine hfin _ ?_
            congr 1
            rw [char_eq_iff_toNat, char_toNat_ofNat_lt _ (by norm_num), h8]
          · rw [if_neg h8]
            by_cases h9 : c.toNat = 9
            · rw [if_pos h9]
              show parseStringBody ('\\' :: 't' :: _) acc = _
              rw [parseStringBody_esc_t]
              refine hfin _ ?_
              congr 1
              rw [char_eq_iff_toNat, char_toNat_ofNat_lt _ (by norm_num), h9]
            · rw [if_neg h9]
              by_cases h10 : c.toNat = 10
              · rw [if_pos h10]
                show parseStringBody ('\\' :: 'n' :: _) acc = _
                rw [parseStringBody_esc_n]
                refine hfin _ ?_
                congr 1
                rw [char_eq_iff_toNat, char_toNat_ofNat_lt _ (by norm_num), h10]
              · rw [if_neg h10]
                by_cases h12 : c.toNat = 12
                · rw [if_pos h12]
                  show parseStringBody ('\\' :: 'f' :: _) acc = _
                  rw [parseStringBody_esc_f]
                  refine hfin _ ?_
                  congr 1
                  rw [char_eq_iff_toNat, char_toNat_ofNat_lt _ (by norm_num), h12]
                · rw [if_neg h12]
                  by_cases h13 : c.toNat = 13
                  · rw [if_pos h13]
                    show parseStringBody ('\\' :: 'r' :: _) acc = _
                    rw [parseStringBody_esc_r]
                    refine hfin _ ?_
                    congr 1
                    rw [char_eq_iff_toNat, char_toNat_ofNat_lt _ (by norm_num), h13]
                  · rw [if_neg h13]
                    by_cases hlt : c.toNat < 32
                    · rw [if_pos hlt]
                      show parseStringBody
                        ('\\' :: 'u' :: '0' :: '0' :: hexDigitChar (c.toNat / 16)
                          :: hexDigitChar (c.toNat % 16) :: _) acc = _
                      rw [parseStringBody_esc_u _ _ (c.toNat / 16) (c.toNat % 16)
                        (hexVal_hexDigitChar _ (by omega))
                        (hexVal_hexDigitChar _ (by omega))]
                      refine hfin _ ?_
                      congr 1
                      rw [show ((0 * 16 + 0) * 16 + c.toNat / 16) * 16 + c.toNat % 16
                          = c.toNat by omega]
                      exact char_ofNat_toNat c
                    · rw [if_neg hlt]
                      show parseStringBody (c :: _) acc = _
                      rw [parseStringBody_raw c _ acc h1 h2 hlt]
                      exact hfin _ rfl

theorem safeRest_not_digit (cs : List Char) (h : SafeRest cs) :
    ∀ c, cs.head? = some c → isDigitChar c = false := by
  intro c hc
  cases cs with
  | nil => simp at hc
  | cons c0 cs' =>
      obtain rfl : c0 = c := by simpa using hc
      rcases h with rfl | rfl | rfl <;> decide

theorem safeRest_not_jsonWs (cs : List Char) (h : SafeRest cs) :
    ∀ c, cs.head? = some c → isJsonWs c = false := by
  intro c hc
  cases cs with
  | nil => simp at hc
  | cons c0 cs' =>
      obtain rfl : c0 = c := by simpa using hc
      rcases h with rfl | rfl | rfl <;> decide

theorem parseExpPart_safe (acc cs : List Char) (h : SafeRest cs) :
    parseExpPart acc cs = some (String.mk acc, cs) := by
  unfold parseExpPart
  rw [if_neg]
  rcases cs with _ | ⟨c, cs'⟩
  · simp
  · rcases h with rfl | rfl | rfl <;> simp

theorem parseFracPart_safe (acc cs : List Char) (h : SafeRest cs) :
    parseFracPart acc cs = some (String.mk acc, cs) := by
  unfold parseFracPart
  rw [if_neg, parseExpPart_safe acc cs h]
  rcases cs with _ | ⟨c, cs'⟩
  · simp
  · rcases h with rfl | rfl | rfl <;> simp

theorem natLitChars_head_ne_zero (n : Nat) (hn : n ≠ 0) (d : Char)
    (ds : List Char) (heq : natLitChars n = d :: ds) : d ≠ '0' := by
  unfold natLitChars at heq
  rw [if_neg hn] at heq
  have hne : Nat.digits 10 n ≠ [] := Nat.digits_ne_nil_iff_ne_zero.mpr hn
  have hrev : (Nat.digits 10 n).reverse ≠ [] := by simpa using hne
  rcases hrd : (Nat.digits 10 n).reverse with _ | ⟨d0, ds0⟩
  · exact absurd hrd hrev
  · rw [hrd, List.map_cons] at heq
    obtain rfl : Char.ofNat (48 + d0) = d := (List.cons.inj heq).1
    have hd0 : d0 ∈ Nat.digits 10 n := by
      rw [← List.mem_reverse, hrd]
      exact List.mem_cons_self _ _
    have hd0lt : d0 < 10 := Nat.digits_lt_base (by norm_num) hd0
    have hd0ne : d0 ≠ 0 := by
      have hlast := Nat.getLast_digit_ne_zero 10 hn
      have hhead : (Nat.digits 10 n).getLast hne = d0 := by
        simp [List.getLast_eq_head_reverse, hrd]
      rw [← hhead]
      exact hlast
    intro hcontra
    have := congrArg Char.toNat hcontra
    rw [char_toNat_ofNat_lt _ (by omega)] at this
    have h0 : '0'.toNat = 48 := rfl
    omega

theorem parseIntDigits_natLit (n : Nat) (rest : List Char) (h : SafeRest rest) :
    parseIntDigits (natLitChars n ++ rest) = some (natLitChars n, rest) := by
  rcases hnl : natLitChars n with _ | ⟨d, ds⟩
  · exact absurd hnl (natLitChars_ne_nil n)
  · have hd_digit : isDigitChar d = true := by
      apply natLitChars_all_digits n
      rw [hnl]
      exact List.mem_cons_self _ _
    rw [List.cons_append]
    simp only [parseIntDigits]
    by_cases hn : n = 0
    · have h0 : natLitChars 0 = ['0'] := rfl
      rw [hn, h0] at hnl
      obtain ⟨h1, h2⟩ := List.cons.inj hnl
      subst h1
      subst h2
      have hnc : ¬(Option.map isDigitChar (([] ++ rest : List Char)).head?).getD false
          = true := by
        rcases rest with _ | ⟨c, rest'⟩
        · simp
        · have := safeRest_not_digit _ h c rfl
          simp [this]
      rw [if_pos rfl, if_neg hnc]
      simp
    · have hd0 : ¬d = '0' := natLitChars_head_ne_zero n hn d ds hnl
      rw [if_neg hd0, if_pos hd_digit]
      have hall : ∀ c ∈ d :: ds, isDigitChar c = true := by
        intro c hc
        apply natLitChars_all_digits n
        rw [hnl]
        exact hc
      obtain ⟨htake, hdrop⟩ :=
        takeWhile_append_all isDigitChar (d :: ds) rest hall
          (safeRest_not_digit rest h)
      rw [show ((d :: ds) ++ rest : List Char) = d :: (ds ++ rest) from rfl]
        at htake hdrop
      rw [htake, hdrop]

theorem parseNumber_natLit (n : Nat) (rest : List Char) (h : SafeRest rest) :
    parseNumber (natLitChars n ++ rest) = some (natLitString n, rest) := by
  have hd_ne_minus : ((natLitChars n ++ rest).head? = some '-') = False := by
    rcases hnl : natLitChars n with _ | ⟨d, ds⟩
    · exact absurd hnl (natLitChars_ne_nil n)
    · have hd_digit : isDigitChar d = true := by
        apply natLitChars_all_digits n
        rw [hnl]
        exact List.mem_cons_self _ _
      have hd_toNat := (isDigitChar_iff d).mp hd_digit
      simp only [List.cons_append, List.head?_cons, Option.some.injEq]
      refine eq_false ?_
      intro hcontra
      have := congrArg Char.toNat hcontra
      have hm : '-'.toNat = 45 := rfl
      omega
  unfold parseNumber
  simp only [hd_ne_minus, if_false, parseIntDigits_natLit n rest h,
    List.nil_append]
  exact parseFracPart_safe _ rest h

theorem digit_not_jsonWs (c : Char) (h : isDigitChar c = true) :
    isJsonWs c = false := by
  have hb := (isDigitChar_iff c).mp h
  unfold isJsonWs
  have h32 : ¬c = ' ' := by
    intro hc
    have := congrArg Char.toNat hc
    have : ' '.toNat = 32 := rfl
    omega
  have h9 : ¬c = '\t' := by
    intro hc
    have := congrArg Char.toNat hc
    have : '\t'.toNat = 9 := rfl
    omega
  have h10 : ¬c = '\n' := by
    intro hc
    have := congrArg Char.toNat hc
    have : '\n'.toNat = 10 := rfl
    omega
  have h13 : ¬c = '\r' := by
    intro hc
    have := congrArg Char.toNat hc
    have : '\r'.toNat = 13 := rfl
    omega
  simp [h32, h9, h10, h13]

theorem digit_char_ne (c : Char) (h : isDigitChar c = true) (d : Char)
    (hd : d.toNat < 48 ∨ 57 < d.toNat) : c ≠ d := by
  have hb := (isDigitChar_iff c).mp h
  intro hc
  have := congrArg Char.toNat hc
  omega

/-- Head character of a rendered value: never whitespace and never one of
the closing delimiters. -/
theorem render_head (j : Json) (hok : NumsOK j) :
    ∃ c cs, Json.render j = c :: cs ∧ isJsonWs c = false ∧
      c ≠ ']' ∧ c ≠ '\x7d' := by
  cases j with
  | null => exact ⟨'n', _, rfl, by decide, by decide, by decide⟩
  | bool b =>
      cases b with
      | false => exact ⟨'f', _, rfl, by decide, by decide, by decide⟩
      | true => exact ⟨'t', _, rfl, by decide, by decide, by decide⟩
  | num lit =>
      obtain ⟨n, rfl⟩ := hok
      rcases hnl : natLitChars n with _ | ⟨d, ds⟩
      · exact absurd hnl (natLitChars_ne_nil n)
      · have hd : isDigitChar d = true := by
          apply natLitChars_all_digits n
          rw [hnl]
          exact List.mem_cons_self _ _
        refine ⟨d, ds, ?_, digit_not_jsonWs d hd, ?_, ?_⟩
        · show (natLitString n).data = d :: ds
          show (String.mk (natLitChars n)).data = d :: ds
          rw [hnl]
        · exact digit_char_ne d hd ']' (by right; decide)
        · exact digit_char_ne d hd '\x7d' (by right; decide)
  | str s => exact ⟨'"', _, rfl, by decide, by decide, by decide⟩
  | arr es => refine ⟨'[', _, rfl, by decide, by decide, by decide⟩
  | obj fs => refine ⟨'\x7b', _, rfl, by decide, by decide, by decide⟩

theorem render_length_pos (j : Json) (hok : NumsOK j) :
    1 ≤ (Json.render j).length := by
  obtain ⟨c, cs, heq, -⟩ := render_head j hok
  rw [heq]
  simp

theorem skip_head_notws (c : Char) (cs : List Char) (h : isJsonWs c = false) :
    skipJsonWs (c :: cs) = c :: cs := by
  simp [skipJsonWs, List.dropWhile_cons, h]

theorem string_mk_data (s : String) : String.mk s.data = s := rfl

theorem json_sizeOf_pos (j : Json) : 1 ≤ sizeOf j := by
  cases j <;> simp_arith

theorem parse_render_all (n : Nat) :
    (∀ (j : Json) (rest : List Char) (fuel : Nat),
        sizeOf j ≤ n → NumsOK j → SafeRest rest →
        2 * ((Json.render j).length + rest.length) + 1 ≤ fuel →
        parseValue fuel (Json.render j ++ rest) = some (j, rest)) ∧
    (∀ (e : Json) (es : List Json) (rest : List Char) (acc : List Json)
        (fuel : Nat),
        sizeOf e + sizeOf es + 1 ≤ n → NumsOK e → NumsOKList es →
        SafeRest rest →
        2 * ((renderElems (e :: es)).length + 1 + rest.length) + 2 ≤ fuel →
        parseElems fuel (renderElems (e :: es) ++ ']' :: rest) acc
          = some (.arr (acc.reverse ++ e :: es), rest)) ∧
    (∀ (k : String) (v : Json) (fs : List (String × Json)) (rest : List Char)
        (acc : List (String × Json)) (fuel : Nat),
        sizeOf v + sizeOf fs + 1 ≤ n → NumsOK v → NumsOKFields fs →
        SafeRest rest →
        2 * ((renderFields ((k, v) :: fs)).length + 1 + rest.length) + 2 ≤ fuel →
        parseFields fuel (renderFields ((k, v) :: fs) ++ '\x7d' :: rest) acc
          = some (.obj (acc.reverse ++ (k, v) :: fs), rest)) := by
  induction n with
  | zero =>
      refine ⟨?_, ?_, ?_⟩
      · intro j _ _ hsize
        exact absurd hsize (by have := json_sizeOf_pos j; omega)
      · intro e es _ _ _ hsize
        exact absurd hsize (by omega)
      · intro k v fs _ _ _ hsize
        exact absurd hsize (by omega)
  | succ n ih =>
      obtain ⟨ihv, ihe, ihf⟩ := ih
      refine ⟨?_, ?_, ?_⟩
      · intro j rest fuel hsize hok hrest hfuel
        obtain ⟨fuel', rfl⟩ : ∃ f, fuel = f + 1 := by
          cases fuel with
          | zero => omega
          | succ f => exact ⟨f, rfl⟩
        cases j with
        | null =>
            rw [parseValue.eq_def]
            simp only [Json.render]
            rw [skipJsonWs_eq_of_head _ (by intro c hc; simp at hc; rw [← hc]; decide)]
            simp
        | bool b =>
            cases b with
            | true =>
                rw [parseValue.eq_def]
                simp only [Json.render]
                rw [skipJsonWs_eq_of_head _ (by intro c hc; simp at hc; rw [← hc]; decide)]
                simp
            | false =>
                rw [parseValue.eq_def]
                simp only [Json.render]
                rw [skipJsonWs_eq_of_head _ (by intro c hc; simp at hc; rw [← hc]; decide)]
                simp
        | str s =>
            rw [parseValue.eq_def]
            simp only [Json.render, renderString, List.cons_append, List.append_assoc,
              List.singleton_append]
            rw [skip_head_notws _ _ (by decide)]
            simp [parseStringBody_render s.data [] rest, string_mk_data]
        | num lit =>
            obtain ⟨m, rfl⟩ := hok
            have hrender : Json.render (Json.num (natLitString m)) = natLitChars m := rfl
            rw [hrender]
            rcases hnl : natLitChars m with _ | ⟨d, ds⟩
            · exact absurd hnl (natLitChars_ne_nil m)
            · have hd : isDigitChar d = true := by
                apply natLitChars_all_digits m
                rw [hnl]
                exact List.mem_cons_self _ _
              rw [parseValue.eq_def]
              simp only [List.cons_append]
              rw [skip_head_notws _ _ (digit_not_jsonWs d hd)]
              simp only []
              rw [if_neg (digit_char_ne d hd 'n' (by right; decide)),
                if_neg (digit_char_ne d hd 't' (by right; decide)),
                if_neg (digit_char_ne d hd 'f' (by right; decide)),
                if_neg (digit_char_ne d hd '"' (by left; decide)),
                if_neg (digit_char_ne d hd '[' (by right; decide)),
                if_neg (digit_char_ne d hd '\x7b' (by right; decide)),
                if_pos (by rw [hd]; simp)]
              rw [show (d :: (ds ++ rest) : List Char) = (d :: ds) ++ rest from rfl,
                ← hnl, parseNumber_natLit m rest hrest]
        | arr es =>
            cases es with
            | nil =>
                rw [parseValue.eq_def]
                simp only [Json.render, renderElems, List.nil_append, List.cons_append,
                  List.singleton_append]
                rw [skip_head_notws _ _ (by decide)]
                simp only []
                simp only [show (('[' : Char) = 'n') = False from by decide,
                  show (('[' : Char) = 't') = False from by decide,
                  show (('[' : Char) = 'f') = False from by decide,
                  show (('[' : Char) = '"') = False from by decide,
                  show (('[' : Char) = '[') = True from by decide,
                  if_false, if_true, List.nil_append]
                rw [skip_head_notws _ _ (by decide)]
                simp
            | cons e es' =>
                have hok' : NumsOK e ∧ NumsOKList es' := hok
                obtain ⟨c0, cs0, hre, hnws0, hne0, -⟩ := render_head e hok'.1
                have hsplit : ∀ X : List Char,
                    renderElems (e :: es') ++ X
                      = c0 :: ((renderElems (e :: es')).tail ++ X) := by
                  intro X
                  cases es' with
                  | nil =>
                      simp only [renderElems, hre]
                      rfl
                  | cons e2 es'' =>
                      simp only [renderElems, hre, List.cons_append]
                      rfl
                rw [parseValue.eq_def]
                simp only [Json.render, List.cons_append, List.append_assoc,
                  List.singleton_append]
                rw [skip_head_notws _ _ (by decide)]
                simp only []
                simp only [show (('[' : Char) = 'n') = False from by decide,
                  show (('[' : Char) = 't') = False from by decide,
                  show (('[' : Char) = 'f') = False from by decide,
                  show (('[' : Char) = '"') = False from by decide,
                  show (('[' : Char) = '[') = True from by decide,
                  if_false, if_true, List.nil_append]
                rw [hsplit (']' :: rest), skip_head_notws _ _ hnws0,
                  ← hsplit (']' :: rest)]
                rw [if_neg (by
                  rw [hsplit (']' :: rest)]
                  simp only [List.head?_cons, Option.some.injEq]
                  exact fun hc => hne0 hc)]
                have harith : 2 * ((renderElems (e :: es')).length + 1 + rest.length) + 2
                    ≤ fuel' := by
                  have hlen : (Json.render (Json.arr (e :: es'))).length
                      = (renderElems (e :: es')).length + 2 := by
                    simp [Json.render]
                  omega
                exact ihe e es' rest [] fuel'
                  (by simp only [Json.arr.sizeOf_spec, List.cons.sizeOf_spec] at hsize; omega)
                  hok'.1 hok'.2 hrest harith
        | obj fs =>
            cases fs with
            | nil =>
                rw [parseValue.eq_def]
                simp only [Json.render, renderFields, List.nil_append, List.cons_append,
                  List.singleton_append]
                rw [skip_head_notws _ _ (by decide)]
                simp only []
                simp only [show (('\x7b' : Char) = 'n') = False from by decide,
                  show (('\x7b' : Char) = 't') = False from by decide,
                  show (('\x7b' : Char) = 'f') = False from by decide,
                  show (('\x7b' : Char) = '"') = False from by decide,
                  show (('\x7b' : Char) = '[') = False from by decide,
                  show (('\x7b' : Char) = '\x7b') = True from by decide,
                  if_false, if_true, List.nil_append]
                rw [skip_head_notws _ _ (by decide)]
                simp
            | cons kv fs' =>
                obtain ⟨k, v⟩ := kv
                have hok' : NumsOK v ∧ NumsOKFields fs' := hok
                have hqhead : ∀ X : List Char,
                    renderFields ((k, v) :: fs') ++ X
                      = '"' :: ((renderFields ((k, v) :: fs')).tail ++ X) := by
                  intro X
                  cases fs' with
                  | nil =>
                      simp only [renderFields, renderString, List.cons_append]
                      rfl
                  | cons kv2 fs'' =>
                      obtain ⟨k2, v2⟩ := kv2
                      simp only [renderFields, renderString, List.cons_append]
                      rfl
                rw [parseValue.eq_def]
                simp only [Json.render, List.cons_append, List.append_assoc,
                  List.singleton_append]
                rw [skip_head_notws _ _ (by decide)]
                simp only []
                simp only [show (('\x7b' : Char) = 'n') = False from by decide,
                  show (('\x7b' : Char) = 't') = False from by decide,
                  show (('\x7b' : Char) = 'f') = False from by decide,
                  show (('\x7b' : Char) = '"') = False from by decide,
                  show (('\x7b' : Char) = '[') = False from by decide,
                  show (('\x7b' : Char) = '\x7b') = True from by decide,
                  if_false, if_true, List.nil_append]
                rw [hqhead ('\x7d' :: rest), skip_head_notws _ _ (by decide),
                  ← hqhead ('\x7d' :: rest)]
                rw [if_neg (by
                  rw [hqhead ('\x7d' :: rest)]
                  simp only [List.head?_cons, Option.some.injEq]
                  decide)]
                have harith : 2 * ((renderFields ((k, v) :: fs')).length + 1 + rest.length)
                    + 2 ≤ fuel' := by
                  have hlen : (Json.render (Json.obj ((k, v) :: fs'))).length
                      = (renderFields ((k, v) :: fs')).length + 2 := by
                    simp [Json.render]
                  omega
                exact ihf k v fs' rest [] fuel'
                  (by simp only [Json.obj.sizeOf_spec, List.cons.sizeOf_spec,
                        Prod.mk.sizeOf_spec] at hsize; omega)
                  hok'.1 hok'.2 hrest harith
      · intro e es rest acc fuel hsize hok hoks hrest hfuel
        obtain ⟨fuel', rfl⟩ : ∃ f, fuel = f + 1 := by
          cases fuel with
          | zero => omega
          | succ f => exact ⟨f, rfl⟩
        have hLe : 1 ≤ (Json.render e).length := render_length_pos e hok
        cases es with
        | nil =>
            rw [parseElems.eq_def]
            simp only [renderElems]
            rw [ihv e (']' :: rest) fuel'
              (by simp only [List.nil.sizeOf_spec] at hsize; omega)
              hok (by right; left; rfl)
              (by simp only [renderElems] at hfuel; simp at hfuel ⊢; omega)]
            simp only []
            rw [skip_head_notws _ _ (by decide)]
            simp
        | cons e2 es' =>
            have hoks' : NumsOK e2 ∧ NumsOKList es' := hoks
            have hLe2 : 1 ≤ (Json.render e2).length := render_length_pos e2 hoks'.1
            rw [parseElems.eq_def]
            simp only [renderElems, List.append_assoc, List.cons_append]
            rw [ihv e _ fuel'
              (by simp only [List.cons.sizeOf_spec] at hsize; omega)
              hok (by left; rfl)
              (by
                simp only [renderElems] at hfuel
                simp at hfuel ⊢
                omega)]
            simp only []
            rw [skip_head_notws _ _ (by decide)]
            simp only []
            have hrec := ihe e2 es' rest (e :: acc) fuel'
              (by
                simp only [List.cons.sizeOf_spec] at hsize
                have := json_sizeOf_pos e
                omega)
              hoks'.1 hoks'.2 hrest (by
                simp only [renderElems] at hfuel
                simp at hfuel ⊢
                omega)
            rw [hrec]
            simp
      · intro k v fs rest acc fuel hsize hok hoks hrest hfuel
        obtain ⟨fuel', rfl⟩ : ∃ f, fuel = f + 1 := by
          cases fuel with
          | zero => omega
          | succ f => exact ⟨f, rfl⟩
        have hLv : 1 ≤ (Json.render v).length := render_length_pos v hok
        cases fs with
        | nil =>
            rw [parseFields.eq_def]
            simp only [renderFields, renderString, List.cons_append, List.append_assoc,
              List.singleton_append]
            rw [skip_head_notws _ _ (by decide)]
            simp only []
            rw [parseStringBody_render k.data []]
            simp only [List.reverse_nil, List.nil_append, string_mk_data]
            rw [skip_head_notws _ _ (by decide)]
            simp only []
            rw [ihv v ('\x7d' :: rest) fuel' (by omega) hok (by right; right; rfl)
              (by
                simp only [renderFields, renderString] at hfuel
                simp at hfuel ⊢
                omega)]
            simp only []
            rw [skip_head_notws _ _ (by decide)]
            simp
        | cons kv2 fs' =>
            obtain ⟨k2, v2⟩ := kv2
            have hoks' : NumsOK v2 ∧ NumsOKFields fs' := hoks
            rw [parseFields.eq_def]
            simp only [renderFields, renderString, List.cons_append, List.append_assoc,
              List.singleton_append]
            rw [skip_head_notws _ _ (by decide)]
            simp only []
            rw [parseStringBody_render k.data []]
            simp only [List.reverse_nil, List.nil_append, string_mk_data]
            rw [skip_head_notws _ _ (by decide)]
            simp only []
            rw [ihv v _ fuel' (by omega) hok (by left; rfl)
              (by
                simp only [renderFields, renderString] at hfuel
                simp at hfuel ⊢
                omega)]
            simp only []
            rw [skip_head_notws _ _ (by decide)]
            simp only []
            have hrec := ihf k2 v2 fs' rest ((k, v) :: acc) fuel'
              (by
                simp only [List.cons.sizeOf_spec, Prod.mk.sizeOf_spec] at hsize
                have := json_sizeOf_pos v
                omega)
              hoks'.1 hoks'.2 hrest (by
                simp only [renderFields, renderString] at hfuel
                simp at hfuel ⊢
                omega)
            rw [hrec]
            simp

theorem parse_render_val (j : Json) (rest : List Char) (fuel : Nat)
    (hok : NumsOK j) (hrest : SafeRest rest)
    (hfuel : 2 * ((Json.render j).length + rest.length) + 1 ≤ fuel) :
    parseValue fuel (Json.render j ++ rest) = some (j, rest) :=
  (parse_render_all (sizeOf j)).1 j rest fuel le_rfl hok hrest hfuel

theorem decodeNum_natLit (n : Nat) :
    decodeNum (Json.num (natLitString n)) = n := by
  show decodeNatLit (natLitChars n) = n
  exact decodeNatLit_natLitChars n

theorem decodeMapNat_encodeMapNat (m : StrMap Nat) :
    decodeMapNat (some (encodeMapNat m)) = m := by
  induction m with
  | nil => rfl
  | cons p tl ih =>
      obtain ⟨k, v⟩ := p
      simp only [encodeMapNat, decodeMapNat, List.map_cons, List.map_map] at ih ⊢
      rw [decodeNum_natLit, ih]

theorem decodeMapBool_encodeMapBool (m : StrMap Bool) :
    decodeMapBool (some (encodeMapBool m)) = m := by
  induction m with
  | nil => rfl
  | cons p tl ih =>
      obtain ⟨k, v⟩ := p
      simp only [encodeMapBool, decodeMapBool, List.map_cons, List.map_map] at ih ⊢
      rw [ih]

theorem decodeMapMapNat_encodeMapMapNat (m : StrMap (StrMap Nat)) :
    decodeMapMapNat (some (encodeMapMapNat m)) = m := by
  induction m with
  | nil => rfl
  | cons p tl ih =>
      obtain ⟨k, v⟩ := p
      simp only [encodeMapMapNat, decodeMapMapNat, List.map_cons, List.map_map]
        at ih ⊢
      rw [decodeMapNat_encodeMapNat, ih]

theorem numsOK_encodeMapNat (m : StrMap Nat) : NumsOK (encodeMapNat m) := by
  simp only [encodeMapNat, NumsOK]
  induction m with
  | nil => simp only [List.map_nil, NumsOKFields]
  | cons p tl ih =>
      simp only [List.map_cons, NumsOKFields, NumsOK]
      exact ⟨⟨p.2, rfl⟩, ih⟩

theorem numsOK_encodeMapBool (m : StrMap Bool) : NumsOK (encodeMapBool m) := by
  simp only [encodeMapBool, NumsOK]
  induction m with
  | nil => simp only [List.map_nil, NumsOKFields]
  | cons p tl ih =>
      simp only [List.map_cons, NumsOKFields, NumsOK]
      exact ⟨trivial, ih⟩

theorem numsOK_encodeMapMapNat (m : StrMap (StrMap Nat)) :
    NumsOK (encodeMapMapNat m) := by
  simp only [encodeMapMapNat, NumsOK]
  induction m with
  | nil => simp only [List.map_nil, NumsOKFields]
  | cons p tl ih =>
      simp only [List.map_cons, NumsOKFields]
      exact ⟨numsOK_encodeMapNat p.2, ih⟩

theorem numsOK_toJsonValue (b : Bayes) : NumsOK (Bayes.toJsonValue b) := by
  simp only [Bayes.toJsonValue, NumsOK, NumsOKFields]
  exact ⟨numsOK_encodeMapNat b.docCount, numsOK_encodeMapNat b.wordCount,
    numsOK_encodeMapMapNat b.wordFrequencyCount,
    numsOK_encodeMapBool b.categories, ⟨b.totalDocuments, rfl⟩,
    ⟨b.vocabularySize, rfl⟩, trivial, numsOK_encodeMapBool b.vocabulary, trivial⟩

theorem fromParsed_toJsonValue (b : Bayes) :
    Bayes.fromParsed (Bayes.toJsonValue b) = Except.ok b := by
  rw [Bayes.toJsonValue, Bayes.fromParsed.eq_def]
  simp only [Json.getField, StrMap.lookup, String.reduceEq, reduceIte,
    if_true, if_false]
  simp only [decodeMapNat_encodeMapNat, decodeMapBool_encodeMapBool,
    decodeMapMapNat_encodeMapMapNat, decodeNat, decodeNum_natLit]

theorem fromJson_toJson (b : Bayes) :
    Bayes.fromJson (Bayes.toJson b) = Except.ok b := by
  have hdata : (Bayes.toJson b).data = Json.render (Bayes.toJsonValue b) := rfl
  have h := parse_render_val (Bayes.toJsonValue b) []
    (2 * (Json.render (Bayes.toJsonValue b)).length + 2) (numsOK_toJsonValue b)
    (by simp only [SafeRest])
    (by simp only [List.length_nil]; omega)
  rw [List.append_nil] at h
  rw [Bayes.fromJson, parseJson, hdata, h]
  simp only [skipJsonWs, List.dropWhile_nil, if_pos]
  exact fromParsed_toJsonValue b

end JsonLayer

/-- A classifier state with one category whose `docCount` is 0 while
`totalDocuments` is 1 and the vocabulary is empty.  In the source this
state is obtained by deserializing the corresponding JSON text; scoring
any one-token text on it computes
`log(0/1) + 1·log(1/(0+0)) = -Infinity + Infinity = NaN`. -/
def degenerateBayes : Bayes :=
  { docCount := [("a", 0)], wordCount := [("a", 0)],
    wordFrequencyCount := [("a", [])], categories := [("a", true)],
    totalDocuments := 1, vocabularySize := 0, vocabulary := [] }

/-- C5 counterexample: on `degenerateBayes`, `categorize "x"` returns a
NONEMPTY result list (one `NaN`-scored entry) while `chosenCategory` and
the recorded probability remain unset (`NaN > -Infinity` is false), so
the chosen category's recorded score does not equal the maximum score
occurring in `categoryResults` — there is no chosen category at all. -/
theorem c5_counterexample :
    (degenerateBayes.categorize (fun q => q) defaultTokenizer "x").categoryResults
        = [CategoryResult.mk "a" JNum.nan] ∧
    (degenerateBayes.categorize (fun q => q) defaultTokenizer "x").chosenCategory
        = none ∧
    (degenerateBayes.categorize (fun q => q) defaultTokenizer "x").probability
        = none := by
  refine ⟨by decide, by decide, by decide⟩

/-- C5 amended: whenever every computed category score is a finite number
(true in particular for any state trained through `learn` with the
default tokenizer; refuted only in degenerate deserialized states where
scores become `NaN`/`±Infinity`), `categorize` returns `categoryResults`
sorted in non-increasing score order, and `chosenCategory` is set with
its recorded score equal to the maximum score occurring in
`categoryResults`. -/
theorem c5_amended (lgf : ℚ → ℚ) (tokenizer : Tokenizer) (b : Bayes)
    (text : String)
    (hfin : ∀ cat ∈ b.categories.keys,
      ∃ q : ℚ, b.categoryScore lgf (Bayes.frequencyTable (tokenizer text)) cat
        = JNum.fin q) :
    (b.categorize lgf tokenizer text).categoryResults.Pairwise FinDesc ∧
    ((b.categorize lgf tokenizer text).categoryResults ≠ [] →
      ∃ c q, (b.categorize lgf tokenizer text).chosenCategory = some c ∧
        (b.categorize lgf tokenizer text).probability = some (JNum.fin q) ∧
        (∃ x ∈ (b.categorize lgf tokenizer text).categoryResults,
            x.name = c ∧ x.probability = JNum.fin q) ∧
        (∀ x ∈ (b.categorize lgf tokenizer text).categoryResults,
            ∃ qx : ℚ, x.probability = JNum.fin qx ∧ qx ≤ q)) := by
  set ft := Bayes.frequencyTable (tokenizer text) with hft
  have hstart : FoldInv lgf b ft
      ({ chosenCategory := none, probability := none, categoryResults := [] },
        JNum.negInf) [] := ⟨rfl, Or.inl ⟨rfl, rfl, rfl, rfl⟩⟩
  have hfold := categorize_foldl_inv lgf b ft b.categories.keys [] _ hstart hfin
  simp only [List.nil_append] at hfold
  set final := (b.categories.keys).foldl (Bayes.categorizeStep lgf b ft)
      ({ chosenCategory := none, probability := none, categoryResults := [] },
        JNum.negInf) with hfinal
  obtain ⟨hres, hstate⟩ := hfold
  have hr : b.categorize lgf tokenizer text =
      { final.1 with categoryResults := sortResults final.1.categoryResults } := rfl
  have hallfin : ∀ z ∈ final.1.categoryResults,
      ∃ q : ℚ, z.probability = JNum.fin q := by
    intro z hz
    rw [hres] at hz
    obtain ⟨c, hc, rfl⟩ := List.mem_map.mp hz
    obtain ⟨q, hq⟩ := hfin c hc
    exact ⟨q, hq⟩
  constructor
  · rw [hr]
    exact sortResults_sorted _ hallfin
  · intro hne
    have hne' : final.1.categoryResults ≠ [] := by
      intro h0
      apply hne
      rw [hr]
      show sortResults final.1.categoryResults = []
      rw [h0]
      rfl
    rcases hstate with ⟨_, _, _, hproc⟩ |
        ⟨c, q, hchos, hprob, hmax, hcmem, hcscore, hmaxall⟩
    · exact absurd (by rw [hres, hproc]; rfl) hne'
    · refine ⟨c, q, ?_, ?_, ?_, ?_⟩
      · rw [hr]
        exact hchos
      · rw [hr]
        exact hprob
      · refine ⟨CategoryResult.mk c (b.categoryScore lgf ft c), ?_, rfl, hcscore⟩
        rw [hr]
        show _ ∈ sortResults final.1.categoryResults
        apply (sortResults_perm _).mem_iff.mpr
        rw [hres]
        exact List.mem_map.mpr ⟨c, hcmem, rfl⟩
      · intro x hx
        rw [hr] at hx
        have hx' : x ∈ final.1.categoryResults :=
          (sortResults_perm _).mem_iff.mp hx
        rw [hres] at hx'
        obtain ⟨c', hc', rfl⟩ := List.mem_map.mp hx'
        obtain ⟨qx, hqx⟩ := hfin c' hc'
        exact ⟨qx, hqx, hmaxall c' hc' qx hqx⟩

/-- A concrete trained classifier used to witness the amended C5. -/
def trainedExample : Bayes :=
  (Bayes.empty.learn defaultTokenizer "I love cats" "positive").learn
    defaultTokenizer "I hate rain" "negative"

/-- C5 amended witness: the trained two-category classifier, whose two
scores are finite (computed concretely with the identity standing in for
the abstract logarithm on positive rationals). -/
theorem c5_amended_witness :
    (trainedExample.categorize (fun q => q) defaultTokenizer
        "I love rain").categoryResults.Pairwise FinDesc ∧
    ((trainedExample.categorize (fun q => q) defaultTokenizer
        "I love rain").categoryResults ≠ [] →
      ∃ c q, (trainedExample.categorize (fun q => q) defaultTokenizer
            "I love rain").chosenCategory = some c ∧
        (trainedExample.categorize (fun q => q) defaultTokenizer
            "I love rain").probability = some (JNum.fin q) ∧
        (∃ x ∈ (trainedExample.categorize (fun q => q) defaultTokenizer
            "I love rain").categoryResults,
            x.name = c ∧ x.probability = JNum.fin q) ∧
        (∀ x ∈ (trainedExample.categorize (fun q => q) defaultTokenizer
            "I love rain").categoryResults,
            ∃ qx : ℚ, x.probability = JNum.fin qx ∧ qx ≤ q)) :=
  c5_amended (fun q => q) defaultTokenizer trainedExample "I love rain"
    (by
      intro cat hcat
      have hkeys : trainedExample.categories.keys = ["positive", "negative"] := by
        decide
      rw [hkeys] at hcat
      rcases List.mem_cons.mp hcat with rfl | hcat'
      · exact ⟨9 / 8, by decide⟩
      · rcases List.mem_cons.mp hcat' with rfl | h0
        · exact ⟨9 / 8, by decide⟩
        · simp at h0)

/-- C10: `learn(text, c)` never touches the per-category data of any other
category `c'`: its `docCount`, `wordCount` and `wordFrequencyCount`
entries are unchanged. -/
theorem c10_learn_frame (b : Bayes) (tokenizer : Tokenizer) (text c c' : String)
    (h : c' ≠ c) :
    (b.learn tokenizer text c).docCount.lookup c' = b.docCount.lookup c' ∧
    (b.learn tokenizer text c).wordCount.lookup c' = b.wordCount.lookup c' ∧
    (b.learn tokenizer text c).wordFrequencyCount.lookup c'
      = b.wordFrequencyCount.lookup c' := by
  have hsym : c ≠ c' := fun hh => h hh.symm
  unfold Bayes.learn
  obtain ⟨h1, h2, h3⟩ :=
    foldl_learnToken_lookup_ne c c' h
      (Bayes.frequencyTable (tokenizer text))
      { b.initializeCategory c with
        docCount := (b.initializeCategory c).docCount.setKey c
          (((b.initializeCategory c).docCount.lookup c).getD 0 + 1)
        totalDocuments := (b.initializeCategory c).totalDocuments + 1 }
  refine ⟨?_, ?_, ?_⟩
  · rw [h1]
    simp only [StrMap.lookup_setKey_ne _ _ _ _ hsym]
    unfold Bayes.initializeCategory
    by_cases hc : StrMap.truthy (b.categories.lookup c) <;>
      simp [hc, StrMap.lookup_setKey_ne _ _ _ _ hsym]
  · rw [h2]
    unfold Bayes.initializeCategory
    by_cases hc : StrMap.truthy (b.categories.lookup c) <;>
      simp [hc, StrMap.lookup_setKey_ne _ _ _ _ hsym]
  · rw [h3]
    unfold Bayes.initializeCategory
    by_cases hc : StrMap.truthy (b.categories.lookup c) <;>
      simp [hc, StrMap.lookup_setKey_ne _ _ _ _ hsym]

/-- C10 witness at a concrete input. -/
theorem c10_witness :
    ("negative" ≠ "positive") ∧
    ((Bayes.empty.learn defaultTokenizer "I love cats" "positive").docCount.lookup
        "negative" = Bayes.empty.docCount.lookup "negative") :=
  ⟨by decide,
   (c10_learn_frame Bayes.empty defaultTokenizer "I love cats" "positive"
      "negative" (by decide)).1⟩

/-- C9: `defaultTokenizer` maps each character outside the kept class of
its regex to a single space and splits the result on runs of whitespace;
the kept class contains at least the Latin letters, the Cyrillic letters
U+0410–U+044F, the digits and the underscore; on "Hello, world! 123" the
result is exactly ["Hello", "world", "123"], with punctuation stripped
and no empty-string token. -/
theorem c9_default_tokenizer :
    (∀ text : String,
        defaultTokenizer text = (splitWs (text.data.map sanitizeChar)).map String.mk) ∧
    (∀ c : Char,
        (('a' ≤ c ∧ c ≤ 'z') ∨ ('A' ≤ c ∧ c ≤ 'Z') ∨
          (0x410 ≤ c.toNat ∧ c.toNat ≤ 0x44F) ∨
          ('0' ≤ c ∧ c ≤ '9') ∨ c = '_') →
        sanitizeChar c = c) ∧
    (∀ c : Char, inTokenizerClass c = false → sanitizeChar c = ' ') ∧
    defaultTokenizer "Hello, world! 123" = ["Hello", "world", "123"] ∧
    "" ∉ defaultTokenizer "Hello, world! 123" := by
  refine ⟨fun _ => rfl, ?_, ?_, by decide, by decide⟩
  · intro c h
    have hk : inTokenizerClass c = true := by
      simp only [inTokenizerClass, Bool.or_eq_true, Bool.and_eq_true,
        decide_eq_true_eq]
      rcases h with ⟨h1, h2⟩ | ⟨h1, h2⟩ | ⟨h1, h2⟩ | ⟨h1, h2⟩ | rfl
      · exact Or.inl (Or.inl (Or.inl (Or.inl (Or.inl (Or.inl (Or.inl
          (Or.inl (Or.inr ⟨h1, h2⟩))))))))
      · exact Or.inl (Or.inl (Or.inl (Or.inl (Or.inl (Or.inl (Or.inl
          (Or.inr ⟨h1, h2⟩)))))))
      · refine Or.inl (Or.inl (Or.inl (Or.inl (Or.inl (Or.inr ⟨?_, h2⟩)))))
        change 'a'.toNat ≤ c.toNat
        have : 'a'.toNat = 97 := rfl
        omega
      · exact Or.inl (Or.inl (Or.inl (Or.inl (Or.inr ⟨h1, h2⟩))))
      · exact Or.inl (Or.inl (Or.inl (Or.inr rfl)))
    simp [sanitizeChar, hk]
  · intro c h
    simp [sanitizeChar, h]

/-- C9 witness: concrete instances of the hypotheses of
`c9_default_tokenizer` (a kept Cyrillic letter and a replaced comma). -/
theorem c9_witness : sanitizeChar 'Я' = 'Я' ∧ sanitizeChar ',' = ' ' :=
  ⟨c9_default_tokenizer.2.1 'Я' (Or.inr (Or.inr (Or.inl (by decide)))),
   c9_default_tokenizer.2.2.1 ',' (by decide)⟩

/-- C8 counterexample: on a fresh classifier, `learn("", "spam")` does not
leave `wordFrequencyCount["spam"]` unchanged — the empty text tokenizes
to `[""]` (a one-element sequence, not an empty one, because
`"".split(/\s+/)` is `[""]` in JavaScript), so the empty-string token is
recorded with frequency 1. -/
theorem c8_counterexample :
    defaultTokenizer "" = [""] ∧
    (Bayes.empty.learn defaultTokenizer "" "spam").wordFrequencyCount.lookup "spam"
        = some [("", 1)] ∧
    (Bayes.empty.learn defaultTokenizer "" "spam").wordFrequencyCount.lookup "spam"
        ≠ some ([] : StrMap Nat) := by
  refine ⟨rfl, rfl, by decide⟩

/-- C7: `categorize` on a classifier with zero categories returns an empty
result list and an unset (`undefined`) `chosenCategory`, without any
runtime fault (the embedding is a total function). -/
theorem c7_categorize_no_categories (lgf : ℚ → ℚ) (tokenizer : Tokenizer)
    (b : Bayes) (text : String) (h : b.categories = []) :
    b.categorize lgf tokenizer text =
      { chosenCategory := none, probability := none, categoryResults := [] } := by
  simp [Bayes.categorize, h, StrMap.keys, sortResults]

/-- C7 witness: the empty classifier at a concrete text. -/
theorem c7_witness :
    Bayes.empty.categorize (fun q => q) defaultTokenizer "anything" =
      { chosenCategory := none, probability := none, categoryResults := [] } :=
  c7_categorize_no_categories (fun q => q) defaultTokenizer Bayes.empty
    "anything" rfl

/-- C4: serialization round-trip — `Bayes.fromJson (b.toJson)` succeeds
and returns a classifier equal to `b` in every data field (`docCount`,
`wordCount`, `wordFrequencyCount`, `categories`, `totalDocuments`,
`vocabulary`, `vocabularySize`); the tokenizer is configuration, not
serialized state, and plays no part in the comparison. -/
theorem c4_roundtrip (b : Bayes) :
    Bayes.fromJson (Bayes.toJson b) = Except.ok b :=
  fromJson_toJson b

/-- C3: in every state reachable by `learn` calls from a fresh classifier,
`vocabularySize` equals the number of entries of `vocabulary`; a further
`learn` never decreases it; and serialization round-trips the whole state,
so it is also preserved across `toJson`/`fromJson` (while `categorize`
reads the state without writing it). -/
theorem c3_vocabulary_size (b : Bayes) (hb : Reachable b)
    (tokenizer : Tokenizer) (text category : String) :
    b.vocabularySize = b.vocabulary.length ∧
    b.vocabularySize ≤ (b.learn tokenizer text category).vocabularySize ∧
    Bayes.fromJson (Bayes.toJson b) = Except.ok b :=
  ⟨(reachable_wf b hb).vocabSize,
    vocabularySize_le_learn b tokenizer text category,
    fromJson_toJson b⟩

/-- C3 witness: the concrete two-category trained state. -/
theorem c3_witness :
    trainedExample.vocabularySize = trainedExample.vocabulary.length ∧
    trainedExample.vocabularySize ≤
      (trainedExample.learn defaultTokenizer "more text" "positive").vocabularySize ∧
    Bayes.fromJson (Bayes.toJson trainedExample) = Except.ok trainedExample :=
  c3_vocabulary_size trainedExample
    (Reachable.learn defaultTokenizer "I hate rain" "negative"
      (Reachable.learn defaultTokenizer "I love cats" "positive"
        Reachable.empty))
    defaultTokenizer "more text" "positive"

/-- C6 counterexample: `"null"` is syntactically valid JSON — it parses —
yet `fromJson "null"` does not return a classifier: `new Bayes(parsed,
parsed.options)` reads `parsed.options` of `null` and throws a
`TypeError`, refuting "for any syntactically valid input a classifier is
returned without error". -/
theorem c6_counterexample :
    parseJson "null" = some Json.null ∧
    Bayes.fromJson "null" = Except.error Bayes.JsError.typeError :=
  ⟨rfl, rfl⟩

/-- C6 (amended): `fromJson` fails with the format error exactly when the
input is not syntactically valid JSON, and then no classifier state is
constructed; on the valid input whose parse result is `null` it instead
throws a `TypeError`; every other parse result yields a classifier
without error. -/
theorem c6_fromJson_errors (s : String) :
    (Bayes.fromJson s = Except.error Bayes.JsError.formatError ↔
      parseJson s = none) ∧
    (parseJson s = some Json.null →
      Bayes.fromJson s = Except.error Bayes.JsError.typeError) ∧
    (∀ j, parseJson s = some j → j ≠ Json.null →
      ∃ b, Bayes.fromJson s = Except.ok b) := by
  rcases hp : parseJson s with _ | j
  · refine ⟨?_, ?_, ?_⟩
    · rw [Bayes.fromJson, hp]
      simp
    · intro h
      exact absurd h (by simp)
    · intro j h
      exact absurd h (by simp)
  · refine ⟨?_, ?_, ?_⟩
    · rw [Bayes.fromJson, hp]
      simp only []
      constructor
      · intro h
        exfalso
        cases j <;> simp [Bayes.fromParsed.eq_def] at h
      · intro h
        exact absurd h (by simp)
    · intro h
      injection h with h
      subst h
      rw [Bayes.fromJson, hp]
      rfl
    · intro j' hj' hne
      injection hj' with hj'
      subst hj'
      rw [Bayes.fromJson, hp]
      cases j with
      | null => exact absurd rfl hne
      | bool b => exact ⟨_, rfl⟩
      | num l => exact ⟨_, rfl⟩
      | str s => exact ⟨_, rfl⟩
      | arr es => exact ⟨_, rfl⟩
      | obj fs => exact ⟨_, rfl⟩

end TsBayes
